import Mathlib

/-!
# Verification of the t-way covering array generator

Shallow embedding of `src/testflows/_core/covering_array.py` (the IPOG
covering-array engine) together with proofs of the specification claims.

Conventions of the embedding:
* Python arbitrary-precision integers used as bitmaps become `ℕ`;
  `x & ~(1 << k)` becomes `clearBit`, `int.bit_count()` becomes `popCount`.
* A test-row cell is `Option ℕ`: `some v` is a concrete value index,
  `none` is the don't-care sentinel `X`.
* The quantity `coverage - current_coverage` computed by
  `calculate_coverage` can be negative, so coverages are `ℤ`.
* Python `list(set(v))` produces the distinct elements of `v` in an
  unspecified order; it is modelled by `List.dedup` (distinct elements,
  same membership).  All verified claims depend only on membership and
  cardinality of the deduplicated domains, never on their order.
* Out-of-range list subscripts raise exceptions in Python; they are
  modelled with `List.getD` defaults.  Every claim proved below carries
  hypotheses confining it to the in-range executions, where the model
  and the source agree.
-/

namespace TFCore

/-- A test-row cell: `some v` is a concrete value index, `none` is the
don't-care sentinel `X` of the source. -/
abbrev Cell := Option ℕ

/-- A test row (the source's mutable list of value indexes / `X`). -/
abbrev Row := List Cell

/-- Encoded parameters: `parameters_set` of the source, a list whose `j`-th
entry is the list of value indexes `range(d_j)` of parameter `j`. -/
abbrev PSet := List (List ℕ)

/-- Embeds `bitmap & ~(1 << bitmap_index)` on Python non-negative big
integers: clear bit `k` of `x`. -/
def clearBit (x k : ℕ) : ℕ := if x / 2 ^ k % 2 = 1 then x - 2 ^ k else x

/-- Fuel-driven helper for `popCount` (structural recursion so that the
kernel can evaluate it on concrete inputs). -/
def popCountAux : ℕ → ℕ → ℕ
  | 0, _ => 0
  | fuel + 1, n => if n = 0 then 0 else n % 2 + popCountAux fuel (n / 2)

/-- Embeds Python `int.bit_count()`: the number of set bits of `n`. -/
def popCount (n : ℕ) : ℕ := popCountAux n n

/-- Embeds `itertools.product(*doms)`: all tuples taking one element from
each domain, leftmost position most significant. -/
def listProd {α : Type} : List (List α) → List (List α)
  | [] => [[]]
  | d :: ds => d.flatMap fun v => (listProd ds).map fun rest => v :: rest

/-- Embeds `itertools.combinations(l, r)`: all `r`-element subsequences of
`l` in lexicographic position order. -/
def listCombinations {α : Type} : ℕ → List α → List (List α)
  | 0, _ => [[]]
  | _ + 1, [] => []
  | r + 1, x :: xs => ((listCombinations r xs).map fun c => x :: c) ++ listCombinations (r + 1) xs

/-- The source's `Π` namedtuple: the uncovered-combinations store, a list of
parameter combinations and the parallel list of bitmaps. -/
structure PiStore where
  combinations : List (List ℕ)
  bitmap : List ℕ
  deriving DecidableEq, Repr

/-- The source's `BestTest` namedtuple. -/
structure BestTest where
  test : Row
  coverage : ℤ
  bitmap : List ℕ
  deriving DecidableEq, Repr

/-- Embeds `prepare(parameters)`: returns `(parameters_set, parameters_map)`.
`parameters` is the caller's ordered mapping, a list of
(name, value list) pairs; each domain is deduplicated (`list(set(v))`,
modelled by `List.dedup`) and replaced by the index list `range(len(v))`. -/
def prepare {K V : Type} [DecidableEq V] (parameters : List (K × List V)) :
    PSet × List (K × List V) :=
  (parameters.map fun kv => List.range kv.2.dedup.length,
   parameters.map fun kv => (kv.1, kv.2.dedup))

/-- Embeds `combination_index(t, N, combination)`.  The source decrements
`t`, starts from `C(N, t-1) - 1` and subtracts `C(N - (p+1), (t-1) - i)` for
every element `p` of `combination[:-1]`.  Result in `ℤ` because Python's
subtractions are over signed integers. -/
def combination_index (t N : ℕ) (combination : List ℕ) : ℤ :=
  (N.choose (t - 1) : ℤ) - 1 -
    (combination.dropLast.enum.map fun ip =>
      ((N - (ip.2 + 1)).choose (t - 1 - ip.1) : ℤ)).sum

/-- Embeds `combination_values_bitmap_index(combination, values,
parameters_set)`: the mixed-radix bit index
`Σ_i values[i] * prod(value_lengths[i+1:])`. -/
def combination_values_bitmap_index (combination values : List ℕ) (ps : PSet) : ℕ :=
  let value_lengths := combination.map fun p => (ps.getD p []).length
  (values.enum.map fun iv => (value_lengths.drop (iv.1 + 1)).prod * iv.2).sum

/-- Embeds `bitmap_index_combination_values(index, combination,
parameters_set)`: positional decomposition of `index` over the radices
`value_lengths`, most significant first. -/
def bitmap_index_combination_values (index : ℕ) (combination : List ℕ) (ps : PSet) :
    List ℕ :=
  let value_lengths := combination.map fun p => (ps.getD p []).length
  ((List.range combination.length).foldl
    (fun (acc : ℕ × List ℕ) m =>
      let j := (value_lengths.drop (m + 1)).prod
      (acc.1 - acc.1 / j * j, acc.2 ++ [acc.1 / j]))
    (index, [])).2

/-- Embeds `combination_values(test, combination)`: the cells of `test` at
the positions listed in `combination`. -/
def combination_values (test : Row) (combination : List ℕ) : List Cell :=
  combination.map fun p => test.getD p none

/-- Embeds `set_combination_values(test, values, combination)`: write
`values[i]` into `test` at position `combination[i]`. -/
def set_combination_values (test : Row) (values combination : List ℕ) : Row :=
  (combination.zip values).foldl (fun acc pv => acc.set pv.1 (some pv.2)) test

/-- The bitmap width of a combination: `prod(len(parameters_set[p]))`. -/
def comboWidth (ps : PSet) (combination : List ℕ) : ℕ :=
  (combination.map fun p => (ps.getD p []).length).prod

/-- Embeds `construct_π(i, t, parameters_set)`: the combinations are all
`c + (i,)` for `c` among the size-`(t-1)` combinations of `range(i)`, and
every bitmap starts as `(1 << width) - 1`. -/
def construct_π (i t : ℕ) (ps : PSet) : PiStore :=
  let t_way_combinations :=
    (listCombinations (t - 1) (List.range i)).map fun c => c ++ [i]
  ⟨t_way_combinations,
   t_way_combinations.map fun combination => 2 ^ comboWidth ps combination - 1⟩

/-- The bitmap the source reads for a combination:
`π.bitmap[combination_index(t, i, combination)]`. -/
def bmOf (t i : ℕ) (st : PiStore) (combination : List ℕ) : ℕ :=
  st.bitmap.getD (combination_index t i combination).toNat 0

/-- Embeds `calculate_coverage(t, i, test, π, parameters_set)`.  The fold
carries `(coverage, new_bitmap, current_coverage)`; the source returns
`coverage - current_coverage` where `current_coverage` is the loop variable
left over from the **last** combination processed (`0` when there are no
combinations, a case that raises `NameError` in the source and is never
reached by the driver). -/
def calculate_coverage (t i : ℕ) (test : Row) (st : PiStore) (ps : PSet) :
    ℤ × List ℕ :=
  let r := st.combinations.foldl
    (fun (acc : ℤ × List ℕ × ℤ) combination =>
      let index := (combination_index t i combination).toNat
      let bitmap := st.bitmap.getD index 0
      let current_coverage : ℤ := popCount bitmap
      let values := (combination_values test combination).map fun c => c.getD 0
      let bitmap_index := combination_values_bitmap_index combination values ps
      let bitmap' := clearBit bitmap bitmap_index
      let new_coverage : ℤ := popCount bitmap'
      (acc.1 + (current_coverage - new_coverage), acc.2.1.set index bitmap',
        current_coverage))
    (0, st.bitmap, 0)
  (r.1 - r.2.2, r.2.1)

/-- One iteration of the candidate loop of `horizontal_extension`: keep the
new candidate whenever `best is None or coverage >= best.coverage`. -/
def chooseBestStep (t i : ℕ) (test : Row) (st : PiStore) (ps : PSet)
    (best : Option BestTest) (value : ℕ) : Option BestTest :=
  let new_test := test ++ [some value]
  let cb := calculate_coverage t i new_test st ps
  match best with
  | none => some ⟨new_test, cb.1, cb.2⟩
  | some b => if cb.1 ≥ b.coverage then some ⟨new_test, cb.1, cb.2⟩ else some b

/-- The candidate-selection loop of `horizontal_extension`: scan the values
of parameter `i` in ascending order. -/
def chooseBest (t i : ℕ) (test : Row) (st : PiStore) (ps : PSet) : Option BestTest :=
  (ps.getD i []).foldl (chooseBestStep t i test st ps) none

/-- Embeds `horizontal_extension(t, i, tests, π, parameters_set)`: each row
in order is replaced by its best extension and the winning bitmap is
committed to `π` before the next row.  (`best` can only be `None` when the
domain of parameter `i` is empty, an `AttributeError` in the source; the
`getD` default is never reached under the claims' hypotheses.) -/
def horizontal_extension (t i : ℕ) (tests : List Row) (st : PiStore) (ps : PSet) :
    List Row × PiStore :=
  match tests with
  | [] => ([], st)
  | test :: rest =>
    let b := (chooseBest t i test st ps).getD ⟨test, 0, st.bitmap⟩
    let r := horizontal_extension t i rest ⟨st.combinations, b.bitmap⟩ ps
    (b.test :: r.1, r.2)

/-- The `change_existing` test of `vertical_extension`: every position of
the combination holds either the target value or the `X` sentinel. -/
def changeExisting (values : List ℕ) (test_values : List Cell) : Bool :=
  (values.zip test_values).all fun vt => vt.2 == some vt.1 || vt.2 == none

/-- The row scan in `vertical_extension`'s inner loop: find the first row
that already carries `values` at `combination` (keep it unchanged) or that
can absorb them through its don't-cares (modify it); `none` when no row
qualifies. -/
def tryCover (values combination : List ℕ) : List Row → Option (List Row)
  | [] => none
  | test :: rest =>
    let test_values := combination_values test combination
    if test_values = values.map some then some (test :: rest)
    else if changeExisting values test_values then
      some (set_combination_values test values combination :: rest)
    else (tryCover values combination rest).map fun ts => test :: ts

/-- One uncovered value tuple of `vertical_extension`: reuse or modify an
existing row, otherwise append a fresh row of don't-cares of length
`len(parameters_set[:i+1])` carrying the tuple. -/
def coverValueTuple (i : ℕ) (ps : PSet) (tests : List Row) (values combination : List ℕ) :
    List Row :=
  match tryCover values combination tests with
  | some tests' => tests'
  | none =>
    tests ++ [set_combination_values (List.replicate (ps.take (i + 1)).length none)
      values combination]

/-- The `while bitmap:` loop of `vertical_extension`: walk the set bits of
`bitmap` in ascending order (`bitmap_index` is the absolute bit position)
and cover each decoded value tuple. -/
def coverBits (i : ℕ) (ps : PSet) (combination : List ℕ) (tests : List Row)
    (bitmap bitmap_index : ℕ) : List Row :=
  if h : bitmap = 0 then tests
  else
    let tests' :=
      if bitmap % 2 = 1 then
        coverValueTuple i ps tests
          (bitmap_index_combination_values bitmap_index combination ps) combination
      else tests
    coverBits i ps combination tests' (bitmap / 2) (bitmap_index + 1)
termination_by bitmap
decreasing_by exact Nat.div_lt_self (Nat.pos_of_ne_zero h) Nat.one_lt_two

/-- The final loop of `vertical_extension`: replace every remaining `X`
with the first value of that position's domain. -/
def resolveRow (ps : PSet) (test : Row) : Row :=
  test.enum.map fun jp =>
    match jp.2 with
    | none => some ((ps.getD jp.1 []).getD 0 0)
    | some v => some v

/-- Embeds `vertical_extension(t, i, tests, π, parameters_set)`: for each
combination of `π` cover all still-set bits of its bitmap, then resolve all
don't-cares. -/
def vertical_extension (t i : ℕ) (tests : List Row) (st : PiStore) (ps : PSet) :
    List Row :=
  (st.combinations.foldl
    (fun acc combination => coverBits i ps combination acc (bmOf t i st combination) 0)
    tests).map (resolveRow ps)

/-- One iteration of the driver loop of `covering_array`: construct `π` for
parameter `i`, extend horizontally, then vertically. -/
def ipogIter (t : ℕ) (ps : PSet) (tests : List Row) (i : ℕ) : List Row :=
  let st := construct_π i t ps
  let r := horizontal_extension t i tests st ps
  vertical_extension t i r.1 r.2 ps

/-- The driver of `covering_array` up to (but not including) the decoding
step: clamp the strength, seed the rows with the product of the first `t`
domains, and iterate `i = t .. N-1`. -/
def covering_array_tests {K V : Type} [DecidableEq V]
    (parameters : List (K × List V)) (strength : ℤ) : List Row :=
  let t := (max 1 (min strength (parameters.length : ℤ))).toNat
  let ps := (prepare parameters).1
  let tests := (listProd (ps.take t)).map fun row => row.map some
  (List.range' t (ps.length - t)).foldl (ipogIter t ps) tests

/-- Embeds `convert_tests_to_covering_array(tests, parameters_map)`: decode
each index row into an ordered (name, value) row.  (`X` cells and
out-of-range indexes raise in the source; the `getD` defaults are never
reached: the rows reaching this point are concrete and in range.) -/
def convert_tests_to_covering_array {K V : Type} [Inhabited K] [Inhabited V]
    (tests : List Row) (pm : List (K × List V)) : List (List (K × V)) :=
  tests.map fun test => test.enum.map fun jp =>
    ((pm.getD jp.1 default).1, (pm.getD jp.1 default).2.getD (jp.2.getD 0) default)

/-- Embeds `covering_array(parameters, strength)`. -/
def covering_array {K V : Type} [DecidableEq V] [Inhabited K] [Inhabited V]
    (parameters : List (K × List V)) (strength : ℤ) : List (List (K × V)) :=
  convert_tests_to_covering_array (covering_array_tests parameters strength)
    (prepare parameters).2

/-- The observable failures of `check`: `ValueError` on an empty array, and
`CoveringArrayError(combination, values)` for the first missing
combination. -/
inductive CheckError (K V : Type) where
  | emptyCoveringArray : CheckError K V
  | missingCombination (combination : List K) (values : List V) : CheckError K V
  deriving DecidableEq, Repr

/-- One row-match test of `check`: the row agrees with `values` at every
parameter of `combination`. -/
def rowMatches {K V : Type} [DecidableEq K] [DecidableEq V]
    (test : List (K × V)) (combination : List K) (values : List V) : Bool :=
  (combination.zip values).all fun pv => test.lookup pv.1 == some pv.2

/-- The `(combination, values)` pairs enumerated by `check`, in its
iteration order: size-`strength` combinations of the parameter names, and
for each the product of the corresponding domains. -/
def requiredPairs {K V : Type} [DecidableEq K]
    (parameters : List (K × List V)) (strength : ℕ) : List (List K × List V) :=
  (listCombinations strength (parameters.map Prod.fst)).flatMap fun combination =>
    (listProd (combination.map fun p => ((parameters.lookup p).getD []))).map
      fun values => (combination, values)

/-- Embeds `check(parameters, covering_array, strength)`: error on an empty
array, otherwise return the first uncovered pair as an error, else `True`. -/
def check {K V : Type} [DecidableEq K] [DecidableEq V]
    (parameters : List (K × List V)) (covering_array : List (List (K × V)))
    (strength : ℕ) : Except (CheckError K V) Bool :=
  if covering_array = [] then .error .emptyCoveringArray
  else
    match (requiredPairs parameters strength).find?
        (fun cv => !covering_array.any fun test => rowMatches test cv.1 cv.2) with
    | some cv => .error (.missingCombination cv.1 cv.2)
    | none => .ok true

/-! ## Proof-layer definitions -/

/-- Bit `k` of `x` (`0` or `1`). -/
def bitAt (x k : ℕ) : ℕ := x / 2 ^ k % 2

/-- Recursive form of the mixed-radix encoding: only the radices strictly
after each position contribute. -/
def encRec : List ℕ → List ℕ → ℕ
  | _, [] => 0
  | ds, v :: vs => v * ds.tail.prod + encRec ds.tail vs

/-- Recursive form of the mixed-radix decoding. -/
def decRec : List ℕ → ℕ → List ℕ
  | [], _ => []
  | _ :: ds, x => x / ds.prod :: decRec ds (x % ds.prod)

/-- The radices of a combination: the domain sizes of its parameters. -/
def radices (ps : PSet) (combination : List ℕ) : List ℕ :=
  combination.map fun p => (ps.getD p []).length

/-- The subtracted sum inside `combination_index`. -/
def sumTerm (n k : ℕ) (c : List ℕ) : ℤ :=
  (c.enum.map fun ip => ((n - (ip.2 + 1)).choose (k - ip.1) : ℤ)).sum

/-- The rank formula actually computed by `combination_index` on the
dropped-last prefix. -/
def rankAux (n k : ℕ) (c : List ℕ) : ℤ := (n.choose k : ℤ) - 1 - sumTerm n k c

/-- Every cell of the row is a concrete value index (no `X`). -/
def RowConcrete (test : Row) : Prop := ∀ cell ∈ test, cell ≠ none

/-- Every concrete cell of the row is a legal value index of its column. -/
def RowValid (ps : PSet) (test : Row) : Prop :=
  ∀ j v, test[j]? = some (some v) → v < (ps.getD j []).length

/-- The row carries exactly the value tuple `vs` at the positions of the
combination `c`. -/
def covers (test : Row) (c vs : List ℕ) : Prop :=
  combination_values test c = vs.map some

/-- A value tuple drawn from the domains of the combination's parameters. -/
def ValidTuple (ps : PSet) (c vs : List ℕ) : Prop :=
  vs.length = c.length ∧ ∀ pv ∈ c.zip vs, pv.2 < (ps.getD pv.1 []).length

/-- Strictly ascending combination over the parameter prefix `{0..m-1}`. -/
def SortedBelow (m : ℕ) (c : List ℕ) : Prop :=
  c.Sorted (· < ·) ∧ ∀ p ∈ c, p < m

/-- Every strength-`t` combination over the first `L` parameters and every
value tuple over its domains is covered by some row. -/
def CoversAll (ps : PSet) (t L : ℕ) (tests : List Row) : Prop :=
  ∀ c vs, SortedBelow L c → c.length = t → ValidTuple ps c vs →
    ∃ test ∈ tests, covers test c vs

/-- Rows of uniform length `L` with in-range cells. -/
def RowsLV (ps : PSet) (L : ℕ) (tests : List Row) : Prop :=
  ∀ test ∈ tests, test.length = L ∧ RowValid ps test

/-- Rows of uniform length `L`, concrete, with in-range cells. -/
def RowsOK (ps : PSet) (L : ℕ) (tests : List Row) : Prop :=
  ∀ test ∈ tests, test.length = L ∧ RowConcrete test ∧ RowValid ps test

/-- Well-formed encoded parameters: every domain is a non-empty
`range(d)` (as `prepare` produces from non-empty caller domains). -/
def WFP (ps : PSet) : Prop :=
  ∀ dom ∈ ps, dom ≠ [] ∧ dom = List.range dom.length

/-- `w'` preserves every concrete cell of `w` (it may fill don't-cares). -/
def RowRefines (w' w : Row) : Prop :=
  w'.length = w.length ∧ ∀ j v, w.getD j none = some v → w'.getD j none = some v

/-- The rows of `ts` survive, possibly refined and with rows appended. -/
def TestsRefine (ts' ts : List Row) : Prop :=
  ts.length ≤ ts'.length ∧
    ∀ k, k < ts.length → RowRefines (ts'.getD k []) (ts.getD k [])

/-- The store has the canonical combination list of `construct_π` and a
bitmap sequence of matching length. -/
def Canonical (t i : ℕ) (ps : PSet) (st : PiStore) : Prop :=
  st.combinations = (construct_π i t ps).combinations ∧
    st.bitmap.length = st.combinations.length

/-- Every bitmap fits in its combination's width. -/
def BoundedStore (t i : ℕ) (ps : PSet) (st : PiStore) : Prop :=
  ∀ c ∈ st.combinations, bmOf t i st c < 2 ^ comboWidth ps c

/-- Soundness of the cleared bits: a cleared bit's value tuple is covered
by one of the witness rows `W`. -/
def SoundW (t i : ℕ) (ps : PSet) (W : List Row) (st : PiStore) : Prop :=
  ∀ c ∈ st.combinations, ∀ b < comboWidth ps c, bitAt (bmOf t i st c) b = 0 →
    ∃ test ∈ W, covers test c (bitmap_index_combination_values b c ps)

/-- The concrete values of a row at a combination (`X` cells read as `0`;
used only on rows without `X` at those positions). -/
def valsAt (test : Row) (combination : List ℕ) : List ℕ :=
  (combination_values test combination).map fun cell => cell.getD 0

/-- The slot of a combination in the bitmap sequence, as the source
computes it. -/
def ccIdx (t i : ℕ) (c : List ℕ) : ℕ := (combination_index t i c).toNat

/-- The updated bitmap entry `calculate_coverage` writes for a combination. -/
def ccVal (t i : ℕ) (test : Row) (st : PiStore) (ps : PSet) (c : List ℕ) : ℕ :=
  clearBit (st.bitmap.getD (ccIdx t i c) 0)
    (combination_values_bitmap_index c (valsAt test c) ps)

/-- The per-combination decrease in set-bit population. -/
def ccTerm (t i : ℕ) (test : Row) (st : PiStore) (ps : PSet) (c : List ℕ) : ℤ :=
  (popCount (st.bitmap.getD (ccIdx t i c) 0) : ℤ) -
    (popCount (ccVal t i test st ps c) : ℤ)

/-- The true coverage gain of a candidate row: the total number of newly
covered value tuples over all combinations of the store (the quantity the
specification says candidate selection maximises). -/
def trueGain (t i : ℕ) (test : Row) (st : PiStore) (ps : PSet) : ℤ :=
  (st.combinations.map fun c => ccTerm t i test st ps c).sum

/-- Modelled from the spec (§4.3–4.4): one selection step driven by the
true gain instead of the evaluator's shifted score, same `≥` last-wins
tie-break, committing the winning candidate's updated bitmaps. -/
def chooseBestSpecStep (t i : ℕ) (test : Row) (st : PiStore) (ps : PSet)
    (best : Option BestTest) (value : ℕ) : Option BestTest :=
  let new_test := test ++ [some value]
  let gain := trueGain t i new_test st ps
  let bitmap := (calculate_coverage t i new_test st ps).2
  match best with
  | none => some ⟨new_test, gain, bitmap⟩
  | some b => if gain ≥ b.coverage then some ⟨new_test, gain, bitmap⟩ else some b

/-- Modelled from the spec (§4.3–4.4): candidate selection by true gain. -/
def chooseBestSpec (t i : ℕ) (test : Row) (st : PiStore) (ps : PSet) :
    Option BestTest :=
  (ps.getD i []).foldl (chooseBestSpecStep t i test st ps) none

/-- Modelled from the spec (§4.4): horizontal extension selecting by true
gain. -/
def horizontal_extension_spec (t i : ℕ) (tests : List Row) (st : PiStore)
    (ps : PSet) : List Row × PiStore :=
  match tests with
  | [] => ([], st)
  | test :: rest =>
    let b := (chooseBestSpec t i test st ps).getD ⟨test, 0, st.bitmap⟩
    let r := horizontal_extension_spec t i rest ⟨st.combinations, b.bitmap⟩ ps
    (b.test :: r.1, r.2)

/-- Relation between the code's selection accumulator and the
spec-modelled one: same candidate and bitmaps, score shifted by the
constant residual `R`. -/
def bestRel (R : ℤ) : Option BestTest → Option BestTest → Prop
  | none, none => True
  | some b, some b' =>
      b.test = b'.test ∧ b.bitmap = b'.bitmap ∧ b.coverage = b'.coverage - R
  | _, _ => False

/-- Invariant of the spec-modelled selection loop: after scanning
`processed`, `b` is a candidate built from some scanned value whose true
gain is maximal among the scanned values, and every value scanned after it
has strictly smaller true gain (the `≥` comparison keeps the last
maximum). -/
def SpecInv (t i : ℕ) (test : Row) (st : PiStore) (ps : PSet)
    (processed : List ℕ) (b : BestTest) : Prop :=
  (∃ v pre suf, processed = pre ++ v :: suf ∧
    b.test = test ++ [some v] ∧
    b.coverage = trueGain t i (test ++ [some v]) st ps ∧
    b.bitmap = (calculate_coverage t i (test ++ [some v]) st ps).2 ∧
    ∀ w ∈ suf, trueGain t i (test ++ [some w]) st ps < b.coverage) ∧
  ∀ w ∈ processed, trueGain t i (test ++ [some w]) st ps ≤ b.coverage

/-- `SpecInv` lifted to the optional accumulator: `none` only before any
value has been scanned. -/
def OptInv (t i : ℕ) (test : Row) (st : PiStore) (ps : PSet)
    (processed : List ℕ) (acc : Option BestTest) : Prop :=
  (acc = none ∧ processed = []) ∨
    ∃ b, acc = some b ∧ SpecInv t i test st ps processed b

/-- `sumTerm` with the enumeration started at `m`. -/
def sumTermFrom (n k m : ℕ) (c : List ℕ) : ℤ :=
  ((c.enumFrom m).map fun ip => ((n - (ip.2 + 1)).choose (k - ip.1) : ℤ)).sum

/-- The residual carried out of the evaluator's loop: the pre-update
set-bit population of the last combination processed (`0` for an empty
combination list). -/
def ccResidual (t i : ℕ) (st : PiStore) : ℤ :=
  st.combinations.foldl
    (fun _ c => (popCount (st.bitmap.getD (ccIdx t i c) 0) : ℤ)) 0

/-- What `chooseBest` guarantees about its result. -/
def GoodBest (t i : ℕ) (test : Row) (st : PiStore) (ps : PSet) (b : BestTest) :
    Prop :=
  ∃ v ∈ ps.getD i [], b.test = test ++ [some v] ∧
    b.coverage = (calculate_coverage t i b.test st ps).1 ∧
    b.bitmap = (calculate_coverage t i b.test st ps).2

/-! ## Bit arithmetic -/

theorem bitAt_lt_two (x k : ℕ) : bitAt x k < 2 := Nat.mod_lt _ (by norm_num)

theorem bitAt_zero (x : ℕ) : bitAt x 0 = x % 2 := by
  simp [bitAt]

theorem bitAt_div_two (x k : ℕ) : bitAt (x / 2) k = bitAt x (k + 1) := by
  unfold bitAt
  rw [Nat.div_div_eq_div_mul, pow_succ, mul_comm (2 ^ k) 2, mul_comm 2 (2 ^ k)]

theorem bitAt_one_le (x k : ℕ) (h : bitAt x k = 1) : 2 ^ k ≤ x := by
  by_contra hlt
  push_neg at hlt
  have : x / 2 ^ k = 0 := Nat.div_eq_of_lt hlt
  simp [bitAt, this] at h

theorem bitAt_lt_of_lt_pow {x w k : ℕ} (hx : x < 2 ^ w) (h : bitAt x k = 1) :
    k < w := by
  have h2 := bitAt_one_le x k h
  by_contra hk
  push_neg at hk
  exact absurd (lt_of_le_of_lt h2 hx) (not_lt.2 (Nat.pow_le_pow_right (by norm_num) hk))

theorem clearBit_le (x k : ℕ) : clearBit x k ≤ x := by
  unfold clearBit
  split
  · exact Nat.sub_le x (2 ^ k)
  · exact le_refl x

theorem clearBit_zero (x : ℕ) : clearBit x 0 = if x % 2 = 1 then x - 1 else x := by
  simp [clearBit]

theorem clearBit_succ (x k : ℕ) :
    clearBit x (k + 1) = 2 * clearBit (x / 2) k + x % 2 := by
  have hdiv : x / 2 ^ (k + 1) = x / 2 / 2 ^ k := by
    rw [Nat.div_div_eq_div_mul, pow_succ, mul_comm (2 ^ k) 2, mul_comm 2 (2 ^ k)]
  have hx2 : x = 2 * (x / 2) + x % 2 := (Nat.div_add_mod x 2).symm
  unfold clearBit
  rw [hdiv]
  split
  · next hbit =>
    have hle : 2 ^ k ≤ x / 2 := bitAt_one_le (x / 2) k hbit
    have hpow : (2:ℕ) ^ (k + 1) = 2 * 2 ^ k := by rw [pow_succ, mul_comm]
    omega
  · omega

theorem bitAt_clearBit (k x b : ℕ) :
    bitAt (clearBit x k) b = if b = k then 0 else bitAt x b := by
  induction k generalizing x b with
  | zero =>
    rw [clearBit_zero]
    cases b with
    | zero =>
      rw [if_pos rfl, bitAt_zero]
      split <;> omega
    | succ m =>
      have hcond : ¬ (m + 1 = 0) := by omega
      rw [if_neg hcond, ← bitAt_div_two, ← bitAt_div_two]
      have : (if x % 2 = 1 then x - 1 else x) / 2 = x / 2 := by
        split <;> omega
      rw [this]
  | succ k ih =>
    rw [clearBit_succ]
    cases b with
    | zero =>
      have hcond : ¬ ((0:ℕ) = k + 1) := by omega
      rw [if_neg hcond, bitAt_zero, bitAt_zero, Nat.mul_add_mod]
      omega
    | succ m =>
      rw [← bitAt_div_two, ← bitAt_div_two]
      have hq : (2 * clearBit (x / 2) k + x % 2) / 2 = clearBit (x / 2) k := by
        omega
      rw [hq, ih]
      by_cases hmk : m = k
      · rw [if_pos hmk, if_pos (by omega)]
      · rw [if_neg hmk, if_neg (by omega)]

theorem bitAt_clearBit_self (x k : ℕ) : bitAt (clearBit x k) k = 0 := by
  simp [bitAt_clearBit]

theorem bitAt_clearBit_ne (x k b : ℕ) (h : b ≠ k) :
    bitAt (clearBit x k) b = bitAt x b := by
  simp [bitAt_clearBit, h]

theorem bitAt_all_ones {w b : ℕ} (h : b < w) : bitAt (2 ^ w - 1) b = 1 := by
  induction w generalizing b with
  | zero => omega
  | succ w ih =>
    have hpow : (2:ℕ) ^ (w + 1) = 2 * 2 ^ w := by rw [pow_succ, mul_comm]
    have h1 : (1:ℕ) ≤ 2 ^ w := Nat.one_le_two_pow
    cases b with
    | zero =>
      rw [bitAt_zero]
      omega
    | succ m =>
      rw [← bitAt_div_two]
      have : (2 ^ (w + 1) - 1) / 2 = 2 ^ w - 1 := by omega
      rw [this]
      exact ih (by omega)

/-! ## Mixed-radix encoding and decoding -/

theorem radices_length (ps : PSet) (c : List ℕ) : (radices ps c).length = c.length :=
  List.length_map _ _

theorem comboWidth_eq_prod (ps : PSet) (c : List ℕ) :
    comboWidth ps c = (radices ps c).prod := rfl

theorem encRec_from (vs : List ℕ) :
    ∀ (n : ℕ) (vl : List ℕ),
      ((vs.enumFrom n).map fun iv => (vl.drop (iv.1 + 1)).prod * iv.2).sum =
        encRec (vl.drop n) vs := by
  induction vs with
  | nil => intro n vl; simp [encRec]
  | cons v vs ih =>
    intro n vl
    rw [List.enumFrom_cons, List.map_cons, List.sum_cons, ih (n + 1) vl]
    show (vl.drop (n + 1)).prod * v + _ = encRec (vl.drop n) (v :: vs)
    rw [encRec, List.tail_drop, mul_comm]

theorem combination_values_bitmap_index_eq (c vs : List ℕ) (ps : PSet) :
    combination_values_bitmap_index c vs ps = encRec (radices ps c) vs := by
  unfold combination_values_bitmap_index
  have h := encRec_from vs 0 (radices ps c)
  rw [List.drop_zero] at h
  exact h

theorem decRec_fold_aux (vl : List ℕ) :
    ∀ (k s x : ℕ) (acc : List ℕ), (vl.drop s).length = k →
      ((List.range' s k).foldl
        (fun (a : ℕ × List ℕ) m =>
          let j := (vl.drop (m + 1)).prod
          (a.1 - a.1 / j * j, a.2 ++ [a.1 / j]))
        (x, acc)).2 = acc ++ decRec (vl.drop s) x := by
  intro k
  induction k with
  | zero =>
    intro s x acc hlen
    have : vl.drop s = [] := List.length_eq_zero.1 hlen
    simp [this, decRec]
  | succ k ih =>
    intro s x acc hlen
    obtain ⟨d, ds, hds⟩ : ∃ d ds, vl.drop s = d :: ds := by
      cases hd : vl.drop s with
      | nil => rw [hd] at hlen; simp at hlen
      | cons d ds => exact ⟨d, ds, rfl⟩
    have htail : vl.drop (s + 1) = ds := by
      rw [← List.tail_drop, hds, List.tail_cons]
    have hlen' : (vl.drop (s + 1)).length = k := by
      rw [htail]
      have := hlen
      rw [hds] at this
      simpa using this
    rw [List.range'_succ, List.foldl_cons]
    show ((List.range' (s + 1) k).foldl _
      (x - x / (vl.drop (s + 1)).prod * (vl.drop (s + 1)).prod,
        acc ++ [x / (vl.drop (s + 1)).prod])).2 = _
    rw [ih (s + 1) _ _ hlen', hds, htail]
    have hmod : x - x / ds.prod * ds.prod = x % ds.prod := by
      have := Nat.div_add_mod x ds.prod
      have h2 : ds.prod * (x / ds.prod) = x / ds.prod * ds.prod := mul_comm _ _
      omega
    rw [hmod, decRec]
    simp

theorem bitmap_index_combination_values_eq (index : ℕ) (c : List ℕ) (ps : PSet) :
    bitmap_index_combination_values index c ps = decRec (radices ps c) index := by
  unfold bitmap_index_combination_values
  have h := decRec_fold_aux (radices ps c) c.length 0 index []
  rw [List.drop_zero] at h
  rw [List.range_eq_range']
  exact h (radices_length ps c)

theorem encRec_lt : ∀ (ds vs : List ℕ), vs.length = ds.length →
    (∀ pv ∈ ds.zip vs, pv.2 < pv.1) → encRec ds vs < ds.prod := by
  intro ds
  induction ds with
  | nil =>
    intro vs hlen _
    have : vs = [] := List.length_eq_zero.1 hlen
    simp [this, encRec]
  | cons d ds ih =>
    intro vs hlen hb
    cases vs with
    | nil => simp at hlen
    | cons v vs =>
      have hv : v < d := hb (d, v) (by simp [List.zip_cons_cons])
      have hrest : encRec ds vs < ds.prod := by
        apply ih vs (by simpa using hlen)
        intro pv hpv
        exact hb pv (by simp [List.zip_cons_cons, hpv])
      show v * ds.prod + encRec ds vs < (d :: ds).prod
      rw [List.prod_cons]
      calc v * ds.prod + encRec ds vs < v * ds.prod + ds.prod := by omega
        _ = (v + 1) * ds.prod := by ring
        _ ≤ d * ds.prod := Nat.mul_le_mul_right _ (by omega)

theorem decRec_encRec : ∀ (ds vs : List ℕ), vs.length = ds.length →
    (∀ pv ∈ ds.zip vs, pv.2 < pv.1) → decRec ds (encRec ds vs) = vs := by
  intro ds
  induction ds with
  | nil =>
    intro vs hlen _
    have : vs = [] := List.length_eq_zero.1 hlen
    simp [this, decRec]
  | cons d ds ih =>
    intro vs hlen hb
    cases vs with
    | nil => simp at hlen
    | cons v vs =>
      have hrest : encRec ds vs < ds.prod := by
        apply encRec_lt ds vs (by simpa using hlen)
        intro pv hpv
        exact hb pv (by simp [List.zip_cons_cons, hpv])
      have hpos : 0 < ds.prod := by omega
      show (v * ds.prod + encRec ds vs) / ds.prod :: decRec ds ((v * ds.prod + encRec ds vs) % ds.prod) = v :: vs
      have hdiv : (v * ds.prod + encRec ds vs) / ds.prod = v := by
        rw [mul_comm, Nat.mul_add_div hpos, Nat.div_eq_of_lt hrest]
        omega
      have hmod : (v * ds.prod + encRec ds vs) % ds.prod = encRec ds vs := by
        rw [Nat.mul_add_mod' v _ _, Nat.mod_eq_of_lt hrest]
      rw [hdiv, hmod, ih vs (by simpa using hlen)]
      intro pv hpv
      exact hb pv (by simp [List.zip_cons_cons, hpv])

theorem encRec_decRec : ∀ (ds : List ℕ) (x : ℕ), x < ds.prod →
    encRec ds (decRec ds x) = x := by
  intro ds
  induction ds with
  | nil =>
    intro x hx
    simp at hx
    simp [decRec, encRec, hx]
  | cons d ds ih =>
    intro x hx
    rw [List.prod_cons] at hx
    have hpos : 0 < ds.prod := by
      rcases Nat.eq_zero_or_pos ds.prod with h | h
      · rw [h, mul_zero] at hx; omega
      · exact h
    show encRec (d :: ds) (x / ds.prod :: decRec ds (x % ds.prod)) = x
    rw [encRec]
    show x / ds.prod * ds.prod + encRec ds (decRec ds (x % ds.prod)) = x
    rw [ih _ (Nat.mod_lt _ hpos)]
    have h1 := Nat.div_add_mod x ds.prod
    have h2 : ds.prod * (x / ds.prod) = x / ds.prod * ds.prod := mul_comm _ _
    omega

theorem decRec_length : ∀ (ds : List ℕ) (x : ℕ), (decRec ds x).length = ds.length := by
  intro ds
  induction ds with
  | nil => intro x; simp [decRec]
  | cons d ds ih => intro x; simp [decRec, ih]

theorem decRec_valid : ∀ (ds : List ℕ) (x : ℕ), x < ds.prod →
    ∀ pv ∈ ds.zip (decRec ds x), pv.2 < pv.1 := by
  intro ds
  induction ds with
  | nil => intro x _ pv hpv; simp [decRec] at hpv
  | cons d ds ih =>
    intro x hx pv hpv
    rw [List.prod_cons] at hx
    have hpos : 0 < ds.prod := by
      rcases Nat.eq_zero_or_pos ds.prod with h | h
      · rw [h, mul_zero] at hx; omega
      · exact h
    rw [show decRec (d :: ds) x = x / ds.prod :: decRec ds (x % ds.prod) from rfl,
      List.zip_cons_cons] at hpv
    rcases List.mem_cons.1 hpv with h | h
    · rw [h]
      exact (Nat.div_lt_iff_lt_mul hpos).2 (by rw [mul_comm] at hx ⊢; exact hx)
    · exact ih _ (Nat.mod_lt _ hpos) pv h

/-! ## Combination enumeration and the rank formula -/

theorem listCombinations_map {α β : Type} (f : α → β) :
    ∀ (l : List α) (k : ℕ),
      listCombinations k (l.map f) = (listCombinations k l).map (List.map f) := by
  intro l
  induction l with
  | nil =>
    intro k
    cases k <;> simp [listCombinations]
  | cons x xs ih =>
    intro k
    cases k with
    | zero => simp [listCombinations]
    | succ k =>
      simp only [List.map_cons, listCombinations, ih, List.map_append,
        List.map_map]
      rfl

theorem listCombinations_length {α : Type} :
    ∀ (l : List α) (k : ℕ), (listCombinations k l).length = l.length.choose k := by
  intro l
  induction l with
  | nil =>
    intro k
    cases k <;> simp [listCombinations]
  | cons x xs ih =>
    intro k
    cases k with
    | zero => simp [listCombinations]
    | succ k =>
      simp only [listCombinations, List.length_append, List.length_map, ih,
        List.length_cons, Nat.choose_succ_succ]

theorem sumTerm_eq_from (n k : ℕ) (c : List ℕ) :
    sumTerm n k c = sumTermFrom n k 0 c := rfl

theorem sumTermFrom_nil (n k m : ℕ) : sumTermFrom n k m [] = 0 := by
  simp [sumTermFrom]

theorem sumTermFrom_cons (n k m p : ℕ) (c : List ℕ) :
    sumTermFrom n k m (p :: c) =
      ((n - (p + 1)).choose (k - m) : ℤ) + sumTermFrom n k (m + 1) c := by
  simp [sumTermFrom, List.enumFrom_cons]

theorem sumTermFrom_shift_map_succ (n k : ℕ) :
    ∀ (c : List ℕ) (m : ℕ),
      sumTermFrom (n + 1) (k + 1) (m + 1) (c.map Nat.succ) = sumTermFrom n k m c := by
  intro c
  induction c with
  | nil => intro m; simp [sumTermFrom_nil]
  | cons p rest ih =>
    intro m
    rw [List.map_cons, sumTermFrom_cons, sumTermFrom_cons, ih (m + 1)]
    have h1 : n + 1 - (Nat.succ p + 1) = n - (p + 1) := Nat.succ_sub_succ n (p + 1)
    have h2 : k + 1 - (m + 1) = k - m := Nat.succ_sub_succ k m
    rw [h1, h2]

theorem sumTermFrom_map_succ (n k : ℕ) :
    ∀ (c : List ℕ) (m : ℕ),
      sumTermFrom (n + 1) (k + 1) m (c.map Nat.succ) = sumTermFrom n (k + 1) m c := by
  intro c
  induction c with
  | nil => intro m; simp [sumTermFrom_nil]
  | cons p rest ih =>
    intro m
    rw [List.map_cons, sumTermFrom_cons, sumTermFrom_cons, ih (m + 1)]
    have h1 : n + 1 - (Nat.succ p + 1) = n - (p + 1) := Nat.succ_sub_succ n (p + 1)
    rw [h1]

theorem sumTerm_cons_zero (n k : ℕ) (c : List ℕ) :
    sumTerm (n + 1) (k + 1) (0 :: c.map Nat.succ) =
      (n.choose (k + 1) : ℤ) + sumTerm n k c := by
  rw [sumTerm_eq_from, sumTerm_eq_from, sumTermFrom_cons,
    sumTermFrom_shift_map_succ]
  norm_num

theorem sumTerm_map_succ (n k : ℕ) (c : List ℕ) :
    sumTerm (n + 1) (k + 1) (c.map Nat.succ) = sumTerm n (k + 1) c := by
  rw [sumTerm_eq_from, sumTerm_eq_from, sumTermFrom_map_succ]

theorem rankAux_nil_eq_zero (n : ℕ) : rankAux n 0 [] = 0 := by
  simp [rankAux, sumTerm_eq_from, sumTermFrom_nil]

theorem rankAux_position :
    ∀ (n k j : ℕ) (c : List ℕ),
      (listCombinations k (List.range n))[j]? = some c → rankAux n k c = (j : ℤ) := by
  intro n
  induction n with
  | zero =>
    intro k j c h
    cases k with
    | zero =>
      simp only [List.range_zero, listCombinations] at h
      cases j with
      | zero =>
        have hc : c = [] := by simpa using h.symm
        subst hc
        simp [rankAux_nil_eq_zero]
      | succ j => simp at h
    | succ k =>
      simp [List.range_zero, listCombinations] at h
  | succ n ih =>
    intro k j c h
    cases k with
    | zero =>
      simp only [listCombinations] at h
      cases j with
      | zero =>
        have hc : c = [] := by simpa using h.symm
        subst hc
        simp [rankAux_nil_eq_zero]
      | succ j => simp at h
    | succ k =>
      rw [List.range_succ_eq_map] at h
      simp only [listCombinations, listCombinations_map] at h
      have hlenA : (((listCombinations k (List.range n)).map
          (List.map Nat.succ)).map fun c => 0 :: c).length = n.choose k := by
        simp [listCombinations_length]
      by_cases hj : j < n.choose k
      · rw [List.getElem?_append_left (by rw [hlenA]; exact hj)] at h
        simp only [List.getElem?_map] at h
        cases hc0 : (listCombinations k (List.range n))[j]? with
        | none => rw [hc0] at h; simp at h
        | some c₀ =>
          rw [hc0] at h
          simp only [Option.map_some'] at h
          have hc : c = 0 :: c₀.map Nat.succ := (Option.some_injective _ h).symm
          subst hc
          have hIH := ih k j c₀ hc0
          unfold rankAux at hIH ⊢
          rw [sumTerm_cons_zero]
          have hcast : ((n + 1).choose (k + 1) : ℤ)
              = (n.choose k : ℤ) + (n.choose (k + 1) : ℤ) := by
            rw [Nat.choose_succ_succ]
            push_cast
            ring
          omega
      · push_neg at hj
        rw [List.getElem?_append_right (by rw [hlenA]; exact hj)] at h
        rw [hlenA] at h
        simp only [List.getElem?_map] at h
        cases hc0 : (listCombinations (k + 1) (List.range n))[j - n.choose k]? with
        | none => rw [hc0] at h; simp at h
        | some c₀ =>
          rw [hc0] at h
          simp only [Option.map_some'] at h
          have hc : c = c₀.map Nat.succ := (Option.some_injective _ h).symm
          subst hc
          have hIH := ih (k + 1) (j - n.choose k) c₀ hc0
          unfold rankAux at hIH ⊢
          rw [sumTerm_map_succ]
          have hcast : ((n + 1).choose (k + 1) : ℤ)
              = (n.choose k : ℤ) + (n.choose (k + 1) : ℤ) := by
            rw [Nat.choose_succ_succ]
            push_cast
            ring
          have hsub : ((j - n.choose k : ℕ) : ℤ) = (j : ℤ) - (n.choose k : ℤ) := by
            omega
          omega

theorem mem_listCombinations {α : Type} :
    ∀ (l : List α) (k : ℕ) (c : List α),
      c ∈ listCombinations k l ↔ c.Sublist l ∧ c.length = k := by
  intro l
  induction l with
  | nil =>
    intro k c
    cases k with
    | zero =>
      simp only [listCombinations, List.mem_singleton]
      constructor
      · rintro rfl; exact ⟨List.Sublist.refl [], rfl⟩
      · rintro ⟨hs, hl⟩; exact List.length_eq_zero.1 hl
    | succ k =>
      simp only [listCombinations, List.not_mem_nil, false_iff, not_and]
      intro hs
      rw [List.sublist_nil.1 hs]
      simp
  | cons x xs ih =>
    intro k c
    cases k with
    | zero =>
      simp only [listCombinations, List.mem_singleton]
      constructor
      · rintro rfl; exact ⟨List.nil_sublist _, rfl⟩
      · rintro ⟨hs, hl⟩; exact List.length_eq_zero.1 hl
    | succ k =>
      simp only [listCombinations, List.mem_append, List.mem_map]
      constructor
      · rintro (⟨c₀, hc₀, rfl⟩ | hc)
        · obtain ⟨hs, hl⟩ := (ih k c₀).1 hc₀
          exact ⟨hs.cons₂ x, by simp [hl]⟩
        · obtain ⟨hs, hl⟩ := (ih (k + 1) c).1 hc
          exact ⟨hs.cons x, hl⟩
      · rintro ⟨hs, hl⟩
        rcases List.sublist_cons_iff.1 hs with hs' | ⟨r, rfl, hr⟩
        · exact Or.inr ((ih (k + 1) c).2 ⟨hs', hl⟩)
        · exact Or.inl ⟨r, (ih k r).2 ⟨hr, by simpa using hl⟩, rfl⟩

theorem sorted_sublist_range' :
    ∀ (c : List ℕ) (lo hi : ℕ), c.Sorted (· < ·) →
      (∀ p ∈ c, lo ≤ p ∧ p < hi) → c.Sublist (List.range' lo (hi - lo)) := by
  intro c
  induction c with
  | nil => intro lo hi _ _; exact List.nil_sublist _
  | cons p rest ih =>
    intro lo hi hsorted hb
    have hp : lo ≤ p ∧ p < hi := hb p (List.mem_cons_self _ _)
    have hrest : rest.Sublist (List.range' (p + 1) (hi - (p + 1))) := by
      apply ih (p + 1) hi (List.Sorted.of_cons hsorted)
      intro q hq
      refine ⟨?_, (hb q (List.mem_cons_of_mem _ hq)).2⟩
      have := (List.sorted_cons.1 hsorted).1 q hq
      omega
    have hsplit : List.range' lo (hi - lo)
        = List.range' lo (p - lo) ++ List.range' p (hi - p) := by
      have := List.range'_append_1 lo (p - lo) (hi - p)
      rw [show lo + (p - lo) = p by omega] at this
      rw [show hi - lo = hi - p + (p - lo) by omega]
      exact this.symm
    rw [hsplit]
    apply List.sublist_append_of_sublist_right
    have : List.range' p (hi - p) = p :: List.range' (p + 1) (hi - (p + 1)) := by
      rw [show hi - p = (hi - (p + 1)) + 1 by omega]
      rw [List.range'_succ]
    rw [this]
    exact hrest.cons₂ p

theorem sorted_below_sublist_range {n : ℕ} {c : List ℕ} (h : SortedBelow n c) :
    c.Sublist (List.range n) := by
  rw [List.range_eq_range']
  have := sorted_sublist_range' c 0 n h.1 fun p hp => ⟨Nat.zero_le p, h.2 p hp⟩
  simpa using this

theorem sublist_range_sorted_below {n : ℕ} {c : List ℕ}
    (h : c.Sublist (List.range n)) : SortedBelow n c := by
  constructor
  · exact (List.pairwise_lt_range n).sublist h
  · intro p hp
    exact List.mem_range.1 (h.subset hp)

theorem sorted_below_mem_listCombinations {n k : ℕ} {c : List ℕ}
    (h : SortedBelow n c) (hl : c.length = k) :
    c ∈ listCombinations k (List.range n) := by
  exact (mem_listCombinations _ k c).2 ⟨sorted_below_sublist_range h, hl⟩

theorem sortedBelow_nodup {n : ℕ} {c : List ℕ} (h : SortedBelow n c) : c.Nodup :=
  h.1.nodup

/-! ## Properties of `construct_π` and `combination_index` -/

theorem combination_index_eq_rankAux (t N : ℕ) (c : List ℕ) :
    combination_index t N c = rankAux N (t - 1) c.dropLast := rfl

theorem construct_π_combinations (i t : ℕ) (ps : PSet) :
    (construct_π i t ps).combinations
      = (listCombinations (t - 1) (List.range i)).map fun c => c ++ [i] := rfl

theorem construct_π_bitmap (i t : ℕ) (ps : PSet) :
    (construct_π i t ps).bitmap
      = (construct_π i t ps).combinations.map fun c => 2 ^ comboWidth ps c - 1 := rfl

theorem construct_π_bitmap_length (i t : ℕ) (ps : PSet) :
    (construct_π i t ps).bitmap.length = (construct_π i t ps).combinations.length := by
  rw [construct_π_bitmap, List.length_map]

theorem construct_π_canonical (i t : ℕ) (ps : PSet) :
    Canonical t i ps (construct_π i t ps) :=
  ⟨rfl, construct_π_bitmap_length i t ps⟩

theorem construct_π_rank {i t : ℕ} {ps : PSet} {j : ℕ} {c : List ℕ}
    (h : (construct_π i t ps).combinations[j]? = some c) :
    combination_index t i c = (j : ℤ) := by
  rw [construct_π_combinations] at h
  rw [List.getElem?_map] at h
  cases hc0 : (listCombinations (t - 1) (List.range i))[j]? with
  | none => rw [hc0] at h; simp at h
  | some c₀ =>
    rw [hc0] at h
    simp only [Option.map_some'] at h
    have hc : c = c₀ ++ [i] := (Option.some_injective _ h).symm
    subst hc
    rw [combination_index_eq_rankAux, List.dropLast_concat]
    exact rankAux_position i (t - 1) j c₀ hc0

theorem ccIdx_of_position {i t : ℕ} {ps : PSet} {j : ℕ} {c : List ℕ}
    (h : (construct_π i t ps).combinations[j]? = some c) :
    ccIdx t i c = j := by
  unfold ccIdx
  rw [construct_π_rank h]
  exact Int.toNat_natCast j

theorem mem_construct_π {i t : ℕ} {ps : PSet} {c : List ℕ} :
    c ∈ (construct_π i t ps).combinations ↔
      ∃ c₀, c = c₀ ++ [i] ∧ SortedBelow i c₀ ∧ c₀.length = t - 1 := by
  rw [construct_π_combinations, List.mem_map]
  constructor
  · rintro ⟨c₀, hc₀, rfl⟩
    obtain ⟨hs, hl⟩ := (mem_listCombinations _ _ _).1 hc₀
    exact ⟨c₀, rfl, sublist_range_sorted_below hs, hl⟩
  · rintro ⟨c₀, rfl, hsb, hl⟩
    exact ⟨c₀, sorted_below_mem_listCombinations hsb hl, rfl⟩

theorem mem_construct_π_sorted {i t : ℕ} {ps : PSet} {c : List ℕ}
    (h : c ∈ (construct_π i t ps).combinations) : SortedBelow (i + 1) c := by
  obtain ⟨c₀, rfl, hsb, _⟩ := mem_construct_π.1 h
  constructor
  · apply List.pairwise_append.2
    refine ⟨hsb.1, List.pairwise_singleton _ _, fun a ha b hb => ?_⟩
    rw [List.mem_singleton.1 hb]
    exact hsb.2 a ha
  · intro p hp
    rcases List.mem_append.1 hp with hp | hp
    · exact Nat.lt_succ_of_lt (hsb.2 p hp)
    · rw [List.mem_singleton.1 hp]; exact Nat.lt_succ_self i

/-! ## Characterization of `calculate_coverage` -/

theorem bmOf_eq (t i : ℕ) (st : PiStore) (c : List ℕ) :
    bmOf t i st c = st.bitmap.getD (ccIdx t i c) 0 := rfl

theorem foldl_const_last {α : Type} (f : α → ℤ) :
    ∀ (l : List α) (r : ℤ) (h : l ≠ []),
      l.foldl (fun _ c => f c) r = f (l.getLast h) := by
  intro l
  induction l with
  | nil => intro r h; exact absurd rfl h
  | cons x xs ih =>
    intro r h
    rw [List.foldl_cons]
    cases xs with
    | nil => simp
    | cons y ys =>
      rw [ih (f x) (List.cons_ne_nil y ys)]
      exact congrArg f (List.getLast_cons (List.cons_ne_nil y ys)).symm

theorem cc_fold_aux (t i : ℕ) (test : Row) (st : PiStore) (ps : PSet) :
    ∀ (combos : List (List ℕ)) (a : ℤ) (bm : List ℕ) (r : ℤ),
      (combos.foldl
        (fun (acc : ℤ × List ℕ × ℤ) combination =>
          let index := (combination_index t i combination).toNat
          let bitmap := st.bitmap.getD index 0
          let current_coverage : ℤ := popCount bitmap
          let values := (combination_values test combination).map fun c => c.getD 0
          let bitmap_index := combination_values_bitmap_index combination values ps
          let bitmap' := clearBit bitmap bitmap_index
          let new_coverage : ℤ := popCount bitmap'
          (acc.1 + (current_coverage - new_coverage), acc.2.1.set index bitmap',
            current_coverage))
        (a, bm, r)) =
      (a + (combos.map fun c => ccTerm t i test st ps c).sum,
       combos.foldl (fun b c => b.set (ccIdx t i c) (ccVal t i test st ps c)) bm,
       combos.foldl (fun _ c => (popCount (st.bitmap.getD (ccIdx t i c) 0) : ℤ)) r) := by
  intro combos
  induction combos with
  | nil => intro a bm r; simp
  | cons c rest ih =>
    intro a bm r
    rw [List.foldl_cons, ih]
    simp only [List.map_cons, List.sum_cons, List.foldl_cons, Prod.mk.injEq,
      ccTerm, ccVal, ccIdx, valsAt]
    exact ⟨by ring, trivial⟩

theorem calculate_coverage_eq (t i : ℕ) (test : Row) (st : PiStore) (ps : PSet) :
    calculate_coverage t i test st ps =
      (trueGain t i test st ps - ccResidual t i st,
       st.combinations.foldl
         (fun b c => b.set (ccIdx t i c) (ccVal t i test st ps c)) st.bitmap) := by
  unfold calculate_coverage
  rw [cc_fold_aux]
  unfold trueGain ccResidual
  simp

theorem foldl_set_length {α : Type} (f : α → ℕ) (g : α → ℕ) :
    ∀ (l : List α) (bm : List ℕ),
      (l.foldl (fun b c => b.set (f c) (g c)) bm).length = bm.length := by
  intro l
  induction l with
  | nil => intro bm; rfl
  | cons c rest ih =>
    intro bm
    rw [List.foldl_cons, ih, List.length_set]

theorem foldl_set_getD_untouched {α : Type} (f : α → ℕ) (g : α → ℕ) :
    ∀ (l : List α) (bm : List ℕ) (j : ℕ), (∀ c ∈ l, f c ≠ j) →
      (l.foldl (fun b c => b.set (f c) (g c)) bm).getD j 0 = bm.getD j 0 := by
  intro l
  induction l with
  | nil => intro bm j _; rfl
  | cons c rest ih =>
    intro bm j hne
    rw [List.foldl_cons, ih _ _ fun c' hc' => hne c' (List.mem_cons_of_mem _ hc')]
    have hfc : f c ≠ j := hne c (List.mem_cons_self _ _)
    simp [List.getD, List.getElem?_set_ne hfc]

theorem foldl_set_getD_hit {α : Type} (f : α → ℕ) (g : α → ℕ) :
    ∀ (l : List α) (bm : List ℕ) (j : ℕ) (v : ℕ),
      (∀ c ∈ l, f c = j → g c = v) → (∃ c ∈ l, f c = j) → j < bm.length →
      (l.foldl (fun b c => b.set (f c) (g c)) bm).getD j 0 = v := by
  intro l
  induction l with
  | nil =>
    intro bm j v _ hex _
    obtain ⟨c, hc, _⟩ := hex
    exact absurd hc (List.not_mem_nil c)
  | cons c rest ih =>
    intro bm j v hval hex hj
    rw [List.foldl_cons]
    by_cases hrest : ∃ c' ∈ rest, f c' = j
    · exact ih _ j v (fun c' hc' => hval c' (List.mem_cons_of_mem _ hc')) hrest
        (by rw [List.length_set]; exact hj)
    · push_neg at hrest
      have hfc : f c = j := by
        obtain ⟨c', hc', hfc'⟩ := hex
        rcases List.mem_cons.1 hc' with rfl | hmem
        · exact hfc'
        · exact absurd hfc' (hrest c' hmem)
      rw [foldl_set_getD_untouched f g rest _ j hrest]
      rw [hfc]
      have : (bm.set j (g c))[j]? = some (g c) := by
        rw [List.getElem?_set_self (by exact hj)]
      simp [List.getD, this]
      exact hval c (List.mem_cons_self _ _) hfc

/-- In a canonical store, a combination's slot is its position. -/
theorem canonical_position {t i : ℕ} {ps : PSet} {st : PiStore}
    (hC : Canonical t i ps st) {c : List ℕ} (hc : c ∈ st.combinations) :
    st.combinations[ccIdx t i c]? = some c := by
  obtain ⟨j, hj⟩ := List.getElem?_of_mem hc
  have : ccIdx t i c = j := by
    rw [hC.1] at hj
    exact ccIdx_of_position hj
  rw [this]
  exact hj

theorem canonical_ccIdx_inj {t i : ℕ} {ps : PSet} {st : PiStore}
    (hC : Canonical t i ps st) {c c' : List ℕ} (hc : c ∈ st.combinations)
    (hc' : c' ∈ st.combinations) (h : ccIdx t i c = ccIdx t i c') : c = c' := by
  have h1 := canonical_position hC hc
  have h2 := canonical_position hC hc'
  rw [h] at h1
  rw [h1] at h2
  exact Option.some_injective _ h2.symm |>.symm

theorem canonical_ccIdx_lt {t i : ℕ} {ps : PSet} {st : PiStore}
    (hC : Canonical t i ps st) {c : List ℕ} (hc : c ∈ st.combinations) :
    ccIdx t i c < st.bitmap.length := by
  have h1 := canonical_position hC hc
  rw [hC.2]
  obtain ⟨hlt, -⟩ := List.getElem?_eq_some.1 h1
  exact hlt

theorem cc_snd_length (t i : ℕ) (test : Row) (st : PiStore) (ps : PSet) :
    (calculate_coverage t i test st ps).2.length = st.bitmap.length := by
  rw [calculate_coverage_eq]
  exact foldl_set_length _ _ _ _

theorem cc_snd_bmOf {t i : ℕ} {ps : PSet} {st : PiStore}
    (hC : Canonical t i ps st) (test : Row) {c : List ℕ}
    (hc : c ∈ st.combinations) :
    bmOf t i ⟨st.combinations, (calculate_coverage t i test st ps).2⟩ c
      = ccVal t i test st ps c := by
  rw [calculate_coverage_eq]
  show (st.combinations.foldl _ st.bitmap).getD (ccIdx t i c) 0 = _
  apply foldl_set_getD_hit
  · intro c' hc' heq
    rw [canonical_ccIdx_inj hC hc' hc heq]
  · exact ⟨c, hc, rfl⟩
  · exact canonical_ccIdx_lt hC hc

theorem cc_canonical {t i : ℕ} {ps : PSet} {st : PiStore}
    (hC : Canonical t i ps st) (test : Row) :
    Canonical t i ps ⟨st.combinations, (calculate_coverage t i test st ps).2⟩ := by
  refine ⟨hC.1, ?_⟩
  show (calculate_coverage t i test st ps).2.length = st.combinations.length
  rw [cc_snd_length]
  exact hC.2

theorem ccVal_le_bmOf (t i : ℕ) (test : Row) (st : PiStore) (ps : PSet)
    (c : List ℕ) : ccVal t i test st ps c ≤ bmOf t i st c :=
  clearBit_le _ _

theorem cc_bounded {t i : ℕ} {ps : PSet} {st : PiStore}
    (hC : Canonical t i ps st) (hB : BoundedStore t i ps st) (test : Row) :
    BoundedStore t i ps ⟨st.combinations, (calculate_coverage t i test st ps).2⟩ := by
  intro c hc
  have h1 := cc_snd_bmOf hC test hc
  calc bmOf t i ⟨st.combinations, (calculate_coverage t i test st ps).2⟩ c
      = ccVal t i test st ps c := h1
    _ ≤ bmOf t i st c := ccVal_le_bmOf t i test st ps c
    _ < 2 ^ comboWidth ps c := hB c hc

/-! ## Row helpers -/

theorem getD_append_left {α : Type} {l₁ l₂ : List α} {p : ℕ} (h : p < l₁.length)
    (d : α) : (l₁ ++ l₂).getD p d = l₁.getD p d := by
  simp [List.getD, List.getElem?_append_left h]

theorem WFP_range {ps : PSet} (hWF : WFP ps) {j : ℕ} (hj : j < ps.length) :
    ps.getD j [] = List.range (ps.getD j []).length ∧ ps.getD j [] ≠ [] := by
  have hmem : ps.getD j [] ∈ ps := by
    rw [List.getD_eq_getElem _ _ hj]
    exact List.getElem_mem hj
  obtain ⟨hne, hr⟩ := hWF _ hmem
  exact ⟨hr, hne⟩

theorem WFP_mem_lt {ps : PSet} (hWF : WFP ps) {j : ℕ} (hj : j < ps.length)
    {v : ℕ} (hv : v ∈ ps.getD j []) : v < (ps.getD j []).length := by
  obtain ⟨hr, -⟩ := WFP_range hWF hj
  rw [hr] at hv
  exact List.mem_range.1 hv

theorem WFP_dom_pos {ps : PSet} (hWF : WFP ps) {j : ℕ} (hj : j < ps.length) :
    0 < (ps.getD j []).length := by
  obtain ⟨-, hne⟩ := WFP_range hWF hj
  exact List.length_pos.2 hne

theorem rowConcrete_append {test : Row} (h : RowConcrete test) (v : ℕ) :
    RowConcrete (test ++ [some v]) := by
  intro cell hc
  rcases List.mem_append.1 hc with hc | hc
  · exact h cell hc
  · rw [List.mem_singleton.1 hc]; simp

theorem rowValid_append {ps : PSet} {test : Row} (h : RowValid ps test)
    {i : ℕ} (hlen : test.length = i) {v : ℕ}
    (hv : v < (ps.getD i []).length) : RowValid ps (test ++ [some v]) := by
  intro j w hj
  by_cases hlt : j < test.length
  · rw [List.getElem?_append_left hlt] at hj
    exact h j w hj
  · push_neg at hlt
    rw [List.getElem?_append_right hlt] at hj
    have hj2 : j - test.length = 0 := by
      by_contra hne
      have : 1 ≤ j - test.length := Nat.pos_of_ne_zero hne
      rw [List.getElem?_eq_none (by simp; omega)] at hj
      exact Option.noConfusion hj
    rw [hj2] at hj
    simp at hj
    subst hj
    have : j = test.length := by omega
    rw [this, hlen]
    exact hv

/-- Reading a concrete row at in-range combination positions yields
concrete values. -/
theorem combination_values_concrete {test : Row} {c : List ℕ}
    (hconc : RowConcrete test) (hpos : ∀ p ∈ c, p < test.length) :
    combination_values test c = (valsAt test c).map some := by
  unfold valsAt combination_values
  simp only [List.map_map]
  apply List.map_congr_left
  intro p hp
  have hlt := hpos p hp
  have hmem : test.getD p none ∈ test := by
    rw [List.getD_eq_getElem _ _ hlt]
    exact List.getElem_mem hlt
  have := hconc _ hmem
  show test.getD p none = some ((test.getD p none).getD 0)
  cases hcell : test.getD p none with
  | none => exact absurd hcell this
  | some w => simp

theorem covers_self_valsAt {test : Row} {c : List ℕ}
    (hconc : RowConcrete test) (hpos : ∀ p ∈ c, p < test.length) :
    covers test c (valsAt test c) :=
  combination_values_concrete hconc hpos

theorem valsAt_length (test : Row) (c : List ℕ) :
    (valsAt test c).length = c.length := by
  simp [valsAt, combination_values]

theorem valsAt_valid {ps : PSet} {test : Row} {c : List ℕ}
    (hvalid : RowValid ps test) (hconc : RowConcrete test)
    (hpos : ∀ p ∈ c, p < test.length) :
    ∀ pv ∈ (radices ps c).zip (valsAt test c), pv.2 < pv.1 := by
  intro pv hpv
  unfold radices valsAt combination_values at hpv
  rw [List.map_map, List.zip_map'] at hpv
  obtain ⟨p, hp, hpe⟩ := List.mem_map.1 hpv
  subst hpe
  have hlt := hpos p hp
  obtain ⟨cell, hcelleq⟩ : ∃ cell, test[p]? = some cell :=
    ⟨test[p], List.getElem?_eq_getElem hlt⟩
  have hmem : cell ∈ test := List.getElem?_mem hcelleq
  obtain ⟨w, rfl⟩ : ∃ w, cell = some w := by
    cases cell with
    | none => exact absurd rfl (hconc none hmem)
    | some w => exact ⟨w, rfl⟩
  have hv := hvalid p w hcelleq
  show (test.getD p none).getD 0 < (ps.getD p []).length
  rw [List.getD_eq_getElem?_getD, hcelleq]
  simpa using hv

/-- The bit position of a concrete row's value tuple is inside the
combination's width. -/
theorem valsAt_index_lt {ps : PSet} {test : Row} {c : List ℕ}
    (hvalid : RowValid ps test) (hconc : RowConcrete test)
    (hpos : ∀ p ∈ c, p < test.length) :
    combination_values_bitmap_index c (valsAt test c) ps < comboWidth ps c := by
  rw [combination_values_bitmap_index_eq, comboWidth_eq_prod]
  exact encRec_lt _ _ (by rw [valsAt_length, radices_length])
    (valsAt_valid hvalid hconc hpos)

theorem valsAt_roundtrip {ps : PSet} {test : Row} {c : List ℕ}
    (hvalid : RowValid ps test) (hconc : RowConcrete test)
    (hpos : ∀ p ∈ c, p < test.length) :
    bitmap_index_combination_values
      (combination_values_bitmap_index c (valsAt test c) ps) c ps = valsAt test c := by
  rw [combination_values_bitmap_index_eq, bitmap_index_combination_values_eq]
  exact decRec_encRec _ _ (by rw [valsAt_length, radices_length])
    (valsAt_valid hvalid hconc hpos)

/-! ## Horizontal extension -/

theorem chooseBestStep_good {t i : ℕ} {test : Row} {st : PiStore} {ps : PSet}
    {acc : Option BestTest} {v : ℕ} (hv : v ∈ ps.getD i [])
    (hacc : ∀ b, acc = some b → GoodBest t i test st ps b) :
    ∀ b, chooseBestStep t i test st ps acc v = some b →
      GoodBest t i test st ps b := by
  intro b hb
  cases acc with
  | none =>
    unfold chooseBestStep at hb
    simp only at hb
    rw [← Option.some_injective _ hb]
    exact ⟨v, hv, rfl, rfl, rfl⟩
  | some b0 =>
    unfold chooseBestStep at hb
    simp only at hb
    split at hb
    · rw [← Option.some_injective _ hb]
      exact ⟨v, hv, rfl, rfl, rfl⟩
    · rw [← Option.some_injective _ hb]
      exact hacc b0 rfl

theorem chooseBestStep_ne_none (t i : ℕ) (test : Row) (st : PiStore) (ps : PSet)
    (acc : Option BestTest) (v : ℕ) :
    chooseBestStep t i test st ps acc v ≠ none := by
  cases acc with
  | none =>
    unfold chooseBestStep
    simp
  | some b0 =>
    unfold chooseBestStep
    simp only
    split <;> simp

theorem chooseBest_aux (t i : ℕ) (test : Row) (st : PiStore) (ps : PSet) :
    ∀ (l : List ℕ), (∀ v ∈ l, v ∈ ps.getD i []) →
      ∀ (acc : Option BestTest), (∀ b, acc = some b → GoodBest t i test st ps b) →
      (∀ b, l.foldl (chooseBestStep t i test st ps) acc = some b →
        GoodBest t i test st ps b) ∧
      (l.foldl (chooseBestStep t i test st ps) acc = none → acc = none ∧ l = []) := by
  intro l
  induction l with
  | nil =>
    intro _ acc hacc
    exact ⟨fun b hb => hacc b hb, fun h => ⟨h, rfl⟩⟩
  | cons v rest ih =>
    intro hsub acc hacc
    rw [List.foldl_cons]
    have hv : v ∈ ps.getD i [] := hsub v (List.mem_cons_self _ _)
    have hsub' : ∀ w ∈ rest, w ∈ ps.getD i [] := fun w hw =>
      hsub w (List.mem_cons_of_mem _ hw)
    obtain ⟨h1, h2⟩ := ih hsub' (chooseBestStep t i test st ps acc v)
      (chooseBestStep_good hv hacc)
    refine ⟨h1, fun hnone => ?_⟩
    obtain ⟨hmid, -⟩ := h2 hnone
    exact absurd hmid (chooseBestStep_ne_none t i test st ps acc v)

theorem chooseBest_good (t i : ℕ) (test : Row) (st : PiStore) (ps : PSet)
    (hdom : ps.getD i [] ≠ []) :
    ∃ b, chooseBest t i test st ps = some b ∧ GoodBest t i test st ps b := by
  obtain ⟨h1, h2⟩ := chooseBest_aux t i test st ps (ps.getD i [])
    (fun v hv => hv) none (fun b hb => Option.noConfusion hb)
  cases hres : chooseBest t i test st ps with
  | none =>
    obtain ⟨-, hl⟩ := h2 hres
    exact absurd hl hdom
  | some b =>
    exact ⟨b, rfl, h1 b hres⟩

theorem soundW_commit {t i : ℕ} {ps : PSet} {st : PiStore} {W : List Row}
    (hC : Canonical t i ps st) (hS : SoundW t i ps W st)
    {newRow : Row} (hlen : newRow.length = i + 1)
    (hconc : RowConcrete newRow) (hvalid : RowValid ps newRow) :
    SoundW t i ps (W ++ [newRow])
      ⟨st.combinations, (calculate_coverage t i newRow st ps).2⟩ := by
  intro c hc b hb hbit
  have hc' : c ∈ st.combinations := hc
  have hpos : ∀ p ∈ c, p < newRow.length := by
    rw [hlen]
    have hmem : c ∈ (construct_π i t ps).combinations := by
      rw [← hC.1]; exact hc'
    exact (mem_construct_π_sorted hmem).2
  have hbm := cc_snd_bmOf hC newRow hc'
  rw [hbm] at hbit
  unfold ccVal at hbit
  by_cases hbe : b = combination_values_bitmap_index c (valsAt newRow c) ps
  · subst hbe
    refine ⟨newRow, List.mem_append.2 (Or.inr (List.mem_singleton.2 rfl)), ?_⟩
    unfold covers
    rw [valsAt_roundtrip hvalid hconc hpos]
    exact covers_self_valsAt hconc hpos
  · rw [bitAt_clearBit_ne _ _ _ hbe] at hbit
    obtain ⟨w, hw, hcov⟩ := hS c hc' b hb hbit
    exact ⟨w, List.mem_append.2 (Or.inl hw), hcov⟩

theorem horizontal_extension_main (t i : ℕ) (ps : PSet) (hWF : WFP ps)
    (hi : i < ps.length) :
    ∀ (tests : List Row) (st : PiStore) (W : List Row),
      Canonical t i ps st → BoundedStore t i ps st → RowsOK ps i tests →
      SoundW t i ps W st →
      Canonical t i ps (horizontal_extension t i tests st ps).2 ∧
      BoundedStore t i ps (horizontal_extension t i tests st ps).2 ∧
      SoundW t i ps (W ++ (horizontal_extension t i tests st ps).1)
        (horizontal_extension t i tests st ps).2 ∧
      RowsOK ps (i + 1) (horizontal_extension t i tests st ps).1 ∧
      List.Forall₂ (fun t' t0 => ∃ v, t' = t0 ++ [some v])
        (horizontal_extension t i tests st ps).1 tests := by
  intro tests
  induction tests with
  | nil =>
    intro st W hC hB hR hS
    refine ⟨hC, hB, ?_, ?_, List.Forall₂.nil⟩
    · show SoundW t i ps (W ++ []) st
      rw [List.append_nil]
      exact hS
    · intro r hr
      exact absurd hr (List.not_mem_nil r)
  | cons test rest ih =>
    intro st W hC hB hR hS
    have hdom : ps.getD i [] ≠ [] := (WFP_range hWF hi).2
    obtain ⟨b, hbeq, v, hv, hbtest, hbcov, hbbm⟩ := chooseBest_good t i test st ps hdom
    obtain ⟨htlen, htconc, htvalid⟩ := hR test (List.mem_cons_self _ _)
    have hRrest : RowsOK ps i rest := fun r hr => hR r (List.mem_cons_of_mem _ hr)
    have hblen : b.test.length = i + 1 := by
      rw [hbtest, List.length_append, htlen]
      rfl
    have hbconc : RowConcrete b.test := by
      rw [hbtest]; exact rowConcrete_append htconc v
    have hbvalid : RowValid ps b.test := by
      rw [hbtest]
      exact rowValid_append htvalid htlen (WFP_mem_lt hWF hi hv)
    have hstb : (⟨st.combinations, b.bitmap⟩ : PiStore)
        = ⟨st.combinations, (calculate_coverage t i b.test st ps).2⟩ := by
      rw [hbbm]
    have hC_b : Canonical t i ps ⟨st.combinations, b.bitmap⟩ := by
      rw [hstb]; exact cc_canonical hC b.test
    have hB_b : BoundedStore t i ps ⟨st.combinations, b.bitmap⟩ := by
      rw [hstb]; exact cc_bounded hC hB b.test
    have hS_b : SoundW t i ps (W ++ [b.test]) ⟨st.combinations, b.bitmap⟩ := by
      rw [hstb]; exact soundW_commit hC hS hblen hbconc hbvalid
    obtain ⟨ihC, ihB, ihS, ihR, ihF⟩ :=
      ih ⟨st.combinations, b.bitmap⟩ (W ++ [b.test]) hC_b hB_b hRrest hS_b
    have hunfold : horizontal_extension t i (test :: rest) st ps
        = (b.test :: (horizontal_extension t i rest ⟨st.combinations, b.bitmap⟩ ps).1,
           (horizontal_extension t i rest ⟨st.combinations, b.bitmap⟩ ps).2) := by
      simp only [horizontal_extension, hbeq, Option.getD_some]
    rw [hunfold]
    refine ⟨ihC, ihB, ?_, ?_, List.Forall₂.cons ⟨v, hbtest⟩ ihF⟩
    · have hassoc : W ++ b.test ::
          (horizontal_extension t i rest ⟨st.combinations, b.bitmap⟩ ps).1
          = (W ++ [b.test]) ++
            (horizontal_extension t i rest ⟨st.combinations, b.bitmap⟩ ps).1 := by
        rw [List.append_assoc, List.singleton_append]
      rw [hassoc]
      exact ihS
    · intro r hr
      rcases List.mem_cons.1 hr with rfl | hr
      · exact ⟨hblen, hbconc, hbvalid⟩
      · exact ihR r hr

/-! ## Row refinement -/

theorem rowRefines_refl (w : Row) : RowRefines w w :=
  ⟨rfl, fun _ _ h => h⟩

theorem rowRefines_trans {w₁ w₂ w₃ : Row} (h₁ : RowRefines w₂ w₁)
    (h₂ : RowRefines w₃ w₂) : RowRefines w₃ w₁ :=
  ⟨h₂.1.trans h₁.1, fun j v h => h₂.2 j v (h₁.2 j v h)⟩

theorem testsRefine_refl (ts : List Row) : TestsRefine ts ts :=
  ⟨le_refl _, fun _ _ => rowRefines_refl _⟩

theorem testsRefine_trans {ts₁ ts₂ ts₃ : List Row} (h₁ : TestsRefine ts₂ ts₁)
    (h₂ : TestsRefine ts₃ ts₂) : TestsRefine ts₃ ts₁ :=
  ⟨h₁.1.trans h₂.1, fun k hk =>
    rowRefines_trans (h₁.2 k hk) (h₂.2 k (lt_of_lt_of_le hk h₁.1))⟩

theorem testsRefine_cons {w' w : Row} {ts' ts : List Row}
    (hw : RowRefines w' w) (hts : TestsRefine ts' ts) :
    TestsRefine (w' :: ts') (w :: ts) := by
  refine ⟨by simpa using Nat.succ_le_succ hts.1, fun k hk => ?_⟩
  cases k with
  | zero => simpa using hw
  | succ k =>
    have hk' : k < ts.length := by simpa using hk
    simpa using hts.2 k hk'

theorem testsRefine_append (ts new : List Row) : TestsRefine (ts ++ new) ts := by
  refine ⟨by simp, fun k hk => ?_⟩
  rw [getD_append_left hk]
  exact rowRefines_refl _

theorem covers_getD {w : Row} {c vs : List ℕ} (h : covers w c vs) :
    vs.length = c.length ∧
      ∀ j, j < c.length → w.getD (c.getD j 0) none = some (vs.getD j 0) := by
  unfold covers combination_values at h
  constructor
  · have := congrArg List.length h
    simpa using this.symm
  · intro j hj
    have hmap := congrArg (fun l => l[j]?) h
    simp only [List.getElem?_map] at hmap
    have hlenv : vs.length = c.length := by
      have := congrArg List.length h
      simpa using this.symm
    have hjv : j < vs.length := by omega
    rw [List.getElem?_eq_getElem hj, List.getElem?_eq_getElem hjv] at hmap
    simp only [Option.map_some'] at hmap
    rw [List.getD_eq_getElem _ _ hj, List.getD_eq_getElem _ _ hjv]
    simpa using hmap

theorem covers_of_getD {w : Row} {c vs : List ℕ}
    (hlen : vs.length = c.length)
    (h : ∀ j, j < c.length → w.getD (c.getD j 0) none = some (vs.getD j 0)) :
    covers w c vs := by
  unfold covers combination_values
  apply List.ext_getElem?
  intro j
  by_cases hj : j < c.length
  · have hjv : j < vs.length := by omega
    rw [List.getElem?_map, List.getElem?_map, List.getElem?_eq_getElem hj,
      List.getElem?_eq_getElem hjv]
    simp only [Option.map_some']
    have := h j hj
    rw [List.getD_eq_getElem _ _ hj, List.getD_eq_getElem _ _ hjv] at this
    simpa using this
  · push_neg at hj
    have hjv : vs.length ≤ j := by omega
    rw [List.getElem?_map, List.getElem?_map, List.getElem?_eq_none (by simpa using hj),
      List.getElem?_eq_none (by simpa using hjv)]
    rfl

theorem covers_of_rowRefines {w' w : Row} {c vs : List ℕ}
    (href : RowRefines w' w) (h : covers w c vs) : covers w' c vs := by
  obtain ⟨hlen, hpts⟩ := covers_getD h
  apply covers_of_getD hlen
  intro j hj
  exact href.2 _ _ (hpts j hj)

theorem exists_covers_of_testsRefine {ts' ts : List Row} {c vs : List ℕ}
    (href : TestsRefine ts' ts) (h : ∃ w ∈ ts, covers w c vs) :
    ∃ w ∈ ts', covers w c vs := by
  obtain ⟨w, hw, hcov⟩ := h
  obtain ⟨k, hk, hkw⟩ := List.getElem_of_mem hw
  have hcov' : covers (ts.getD k []) c vs := by
    rw [List.getD_eq_getElem _ _ hk, hkw]
    exact hcov
  have hk' : k < ts'.length := lt_of_lt_of_le hk href.1
  refine ⟨ts'.getD k [], ?_, covers_of_rowRefines (href.2 k hk) hcov'⟩
  rw [List.getD_eq_getElem _ _ hk']
  exact List.getElem_mem hk'

/-! ## `set_combination_values` -/

theorem scv_nil_vals (test : Row) (c : List ℕ) :
    set_combination_values test [] c = test := by
  unfold set_combination_values
  rw [List.zip_nil_right]
  rfl

theorem scv_cons (test : Row) (v : ℕ) (vs : List ℕ) (p : ℕ) (c : List ℕ) :
    set_combination_values test (v :: vs) (p :: c)
      = set_combination_values (test.set p (some v)) vs c := by
  unfold set_combination_values
  rw [List.zip_cons_cons, List.foldl_cons]

theorem scv_length (vs c : List ℕ) : ∀ (test : Row),
    (set_combination_values test vs c).length = test.length := by
  unfold set_combination_values
  induction (c.zip vs) with
  | nil => intro test; rfl
  | cons pv rest ih =>
    intro test
    rw [List.foldl_cons, ih]
    exact List.length_set test pv.1 _

theorem scv_getD_notmem {c : List ℕ} {q : ℕ} (hq : q ∉ c) (d : Cell) :
    ∀ (vs : List ℕ) (test : Row),
      (set_combination_values test vs c).getD q d = test.getD q d := by
  induction c with
  | nil =>
    intro vs test
    unfold set_combination_values
    rw [List.zip_nil_left]
    rfl
  | cons p c ih =>
    intro vs test
    cases vs with
    | nil => rw [scv_nil_vals]
    | cons v vs =>
      rw [scv_cons, ih (fun h => hq (List.mem_cons_of_mem _ h))]
      have hpq : p ≠ q := fun h => hq (h ▸ List.mem_cons_self _ _)
      simp [List.getD, List.getElem?_set_ne hpq]

theorem scv_covers {c : List ℕ} (hnodup : c.Nodup) :
    ∀ (vs : List ℕ) (test : Row), vs.length = c.length →
      (∀ p ∈ c, p < test.length) →
      covers (set_combination_values test vs c) c vs := by
  induction c with
  | nil =>
    intro vs test hlen _
    rw [List.length_nil] at hlen
    rw [List.length_eq_zero.1 hlen, scv_nil_vals]
    unfold covers combination_values
    simp
  | cons p c ih =>
    intro vs test hlen hpos
    cases vs with
    | nil => simp at hlen
    | cons v vs =>
      rw [scv_cons]
      have hpn : p ∉ c := (List.nodup_cons.1 hnodup).1
      have hplen : p < test.length := hpos p (List.mem_cons_self _ _)
      have htail : covers (set_combination_values (test.set p (some v)) vs c) c vs := by
        apply ih (List.nodup_cons.1 hnodup).2 vs _ (by simpa using hlen)
        intro q hq
        rw [List.length_set]
        exact hpos q (List.mem_cons_of_mem _ hq)
      unfold covers combination_values at htail ⊢
      rw [List.map_cons, List.map_cons, htail]
      congr 1
      rw [scv_getD_notmem hpn]
      simp [List.getD, List.getElem?_set_self hplen]

theorem changeExisting_spec {vs : List ℕ} {tvs : List Cell}
    (h : changeExisting vs tvs = true) :
    ∀ pv ∈ vs.zip tvs, pv.2 = some pv.1 ∨ pv.2 = none := by
  intro pv hpv
  unfold changeExisting at h
  have := List.all_eq_true.1 h pv hpv
  rcases Bool.or_eq_true_iff.1 this with h1 | h1
  · exact Or.inl (by simpa using h1)
  · exact Or.inr (by simpa using h1)

theorem scv_refines {c : List ℕ} (hnodup : c.Nodup) :
    ∀ (vs : List ℕ) (test : Row), vs.length = c.length →
      (∀ pv ∈ vs.zip (combination_values test c), pv.2 = some pv.1 ∨ pv.2 = none) →
      RowRefines (set_combination_values test vs c) test := by
  induction c with
  | nil =>
    intro vs test hlen _
    rw [List.length_eq_zero.1 hlen, scv_nil_vals]
    exact rowRefines_refl test
  | cons p c ih =>
    intro vs test hlen hch
    cases vs with
    | nil => simp at hlen
    | cons v vs =>
      rw [scv_cons]
      have hpn : p ∉ c := (List.nodup_cons.1 hnodup).1
      have hhead : test.getD p none = some v ∨ test.getD p none = none := by
        have := hch (v, test.getD p none) (by
          unfold combination_values
          rw [List.map_cons, List.zip_cons_cons]
          exact List.mem_cons_self _ _)
        simpa using this
      have hset : RowRefines (test.set p (some v)) test := by
        refine ⟨List.length_set test p _, fun j w hw => ?_⟩
        by_cases hj : j = p
        · subst hj
          rcases hhead with hh | hh
          · rw [hw] at hh
            have hjlt : j < test.length := by
              by_contra hge
              push_neg at hge
              rw [List.getD_eq_getElem?_getD, List.getElem?_eq_none (by simpa using hge)] at hw
              exact Option.noConfusion hw
            have hv : w = v := Option.some_injective _ hh
            subst hv
            simp [List.getD, List.getElem?_set_self hjlt]
          · rw [hw] at hh
            exact Option.noConfusion hh
        · rw [List.getD_eq_getElem?_getD, List.getElem?_set_ne (fun h => hj h.symm)]
          rw [List.getD_eq_getElem?_getD] at hw
          exact hw
      refine rowRefines_trans hset ?_
      apply ih (List.nodup_cons.1 hnodup).2 vs _ (by simpa using hlen)
      intro pv hpv
      have hmem : pv ∈ vs.zip (combination_values test c) := by
        unfold combination_values at hpv ⊢
        have hcv : (c.map fun q => (test.set p (some v)).getD q none)
            = c.map fun q => test.getD q none := by
          apply List.map_congr_left
          intro q hq
          have hqp : p ≠ q := fun h => hpn (h ▸ hq)
          simp [List.getD, List.getElem?_set_ne hqp]
        rw [hcv] at hpv
        exact hpv
      have := hch pv (by
        unfold combination_values at hmem ⊢
        rw [List.map_cons, List.zip_cons_cons]
        exact List.mem_cons_of_mem _ hmem)
      exact this

theorem set_rowValid {ps : PSet} {test : Row} (h : RowValid ps test)
    {p v : ℕ} (hv : v < (ps.getD p []).length) :
    RowValid ps (test.set p (some v)) := by
  intro j w hw
  by_cases hjp : j = p
  · subst hjp
    by_cases hlt : j < test.length
    · rw [List.getElem?_set_self (by simpa using hlt)] at hw
      have : some v = some w := by simpa using hw
      rw [← Option.some_injective _ this]
      exact hv
    · push_neg at hlt
      rw [List.set_eq_of_length_le (by simpa using hlt)] at hw
      exact h j w hw
  · rw [List.getElem?_set_ne (fun h' => hjp h'.symm)] at hw
    exact h j w hw

theorem scv_valid {ps : PSet} {c : List ℕ} :
    ∀ (vs : List ℕ) (test : Row), RowValid ps test →
      (∀ pv ∈ c.zip vs, pv.2 < (ps.getD pv.1 []).length) →
      RowValid ps (set_combination_values test vs c) := by
  induction c with
  | nil =>
    intro vs test hval _
    unfold set_combination_values
    rw [List.zip_nil_left]
    exact hval
  | cons p c ih =>
    intro vs test hval hb
    cases vs with
    | nil => rw [scv_nil_vals]; exact hval
    | cons v vs =>
      rw [scv_cons]
      apply ih vs _ (set_rowValid hval (hb (p, v) (by
        rw [List.zip_cons_cons]; exact List.mem_cons_self _ _)))
      intro pv hpv
      exact hb pv (by rw [List.zip_cons_cons]; exact List.mem_cons_of_mem _ hpv)

/-! ## `tryCover` and `coverValueTuple` -/

theorem replicate_rowValid (ps : PSet) (n : ℕ) :
    RowValid ps (List.replicate n (none : Cell)) := by
  intro j v hj
  rw [List.getElem?_replicate] at hj
  split at hj
  · exact Option.noConfusion (Option.some_injective _ hj)
  · exact Option.noConfusion hj

theorem tryCover_facts {ps : PSet} {L : ℕ} {c vs : List ℕ}
    (hnodup : c.Nodup) (hlen : vs.length = c.length)
    (hposL : ∀ p ∈ c, p < L)
    (hvt : ∀ pv ∈ c.zip vs, pv.2 < (ps.getD pv.1 []).length) :
    ∀ (ts ts' : List Row), RowsLV ps L ts → tryCover vs c ts = some ts' →
      TestsRefine ts' ts ∧ (∃ w ∈ ts', covers w c vs) ∧ RowsLV ps L ts' := by
  intro ts
  induction ts with
  | nil =>
    intro ts' _ h
    exact Option.noConfusion h
  | cons w rest ih =>
    intro ts' hrows h
    obtain ⟨hwlen, hwval⟩ := hrows w (List.mem_cons_self _ _)
    have hrest : RowsLV ps L rest := fun r hr => hrows r (List.mem_cons_of_mem _ hr)
    have hposw : ∀ p ∈ c, p < w.length := by rw [hwlen]; exact hposL
    simp only [tryCover] at h
    split at h
    · next hexact =>
      have hts : ts' = w :: rest := (Option.some_injective _ h).symm
      subst hts
      refine ⟨testsRefine_refl _, ⟨w, List.mem_cons_self _ _, hexact⟩, hrows⟩
    · split at h
      · next hch =>
        have hts : ts' = set_combination_values w vs c :: rest :=
          (Option.some_injective _ h).symm
        subst hts
        have hrefw : RowRefines (set_combination_values w vs c) w :=
          scv_refines hnodup vs w hlen (changeExisting_spec hch)
        refine ⟨testsRefine_cons hrefw (testsRefine_refl rest),
          ⟨set_combination_values w vs c, List.mem_cons_self _ _,
            scv_covers hnodup vs w hlen hposw⟩, ?_⟩
        intro r hr
        rcases List.mem_cons.1 hr with rfl | hr
        · exact ⟨(scv_length vs c w).trans hwlen, scv_valid vs w hwval hvt⟩
        · exact hrest r hr
      · cases htc : tryCover vs c rest with
        | none =>
          rw [htc] at h
          exact Option.noConfusion h
        | some ts'' =>
          rw [htc] at h
          simp only [Option.map_some'] at h
          have hts : ts' = w :: ts'' := (Option.some_injective _ h).symm
          subst hts
          obtain ⟨href, ⟨x, hx, hxcov⟩, hrows''⟩ := ih ts'' hrest htc
          refine ⟨testsRefine_cons (rowRefines_refl w) href,
            ⟨x, List.mem_cons_of_mem _ hx, hxcov⟩, ?_⟩
          intro r hr
          rcases List.mem_cons.1 hr with rfl | hr
          · exact ⟨hwlen, hwval⟩
          · exact hrows'' r hr

theorem coverValueTuple_facts {ps : PSet} {i L : ℕ} {c vs : List ℕ}
    (hnodup : c.Nodup) (hlen : vs.length = c.length)
    (hposL : ∀ p ∈ c, p < L)
    (hvt : ∀ pv ∈ c.zip vs, pv.2 < (ps.getD pv.1 []).length)
    (hL : (ps.take (i + 1)).length = L) :
    ∀ (ts : List Row), RowsLV ps L ts →
      TestsRefine (coverValueTuple i ps ts vs c) ts ∧
      (∃ w ∈ coverValueTuple i ps ts vs c, covers w c vs) ∧
      RowsLV ps L (coverValueTuple i ps ts vs c) := by
  intro ts hrows
  unfold coverValueTuple
  cases htc : tryCover vs c ts with
  | some ts' =>
    exact tryCover_facts hnodup hlen hposL hvt ts ts' hrows htc
  | none =>
    rw [hL]
    set new := set_combination_values (List.replicate L none) vs c with hnew
    have hnewlen : new.length = L := by
      rw [hnew, scv_length, List.length_replicate]
    have hposnew : ∀ p ∈ c, p < (List.replicate L (none : Cell)).length := by
      rw [List.length_replicate]; exact hposL
    refine ⟨testsRefine_append ts [new],
      ⟨new, List.mem_append.2 (Or.inr (List.mem_singleton.2 rfl)),
        scv_covers hnodup vs _ hlen hposnew⟩, ?_⟩
    intro r hr
    rcases List.mem_append.1 hr with hr | hr
    · exact hrows r hr
    · rw [List.mem_singleton.1 hr]
      exact ⟨hnewlen, scv_valid vs _ (replicate_rowValid ps L) hvt⟩

/-! ## `coverBits` -/

theorem coverBits_zero (i : ℕ) (ps : PSet) (c : List ℕ) (ts : List Row)
    (idx : ℕ) : coverBits i ps c ts 0 idx = ts := by
  rw [coverBits]
  rfl

theorem coverBits_step (i : ℕ) (ps : PSet) (c : List ℕ) (ts : List Row)
    {bitmap : ℕ} (h : bitmap ≠ 0) (idx : ℕ) :
    coverBits i ps c ts bitmap idx =
      coverBits i ps c
        (if bitmap % 2 = 1 then
          coverValueTuple i ps ts (bitmap_index_combination_values idx c ps) c
        else ts)
        (bitmap / 2) (idx + 1) := by
  rw [coverBits]
  rw [dif_neg h]

theorem bitAt_zero_bitmap (k : ℕ) : bitAt 0 k = 0 := by
  simp [bitAt]

theorem coverBits_facts {ps : PSet} {i L : ℕ} {c : List ℕ}
    (hnodup : c.Nodup) (hposL : ∀ p ∈ c, p < L)
    (hL : (ps.take (i + 1)).length = L) :
    ∀ (bitmap idx : ℕ) (ts : List Row),
      (∀ k, bitAt bitmap k = 1 → ValidTuple ps c
        (bitmap_index_combination_values (idx + k) c ps)) →
      RowsLV ps L ts →
      TestsRefine (coverBits i ps c ts bitmap idx) ts ∧
      RowsLV ps L (coverBits i ps c ts bitmap idx) ∧
      ∀ k, bitAt bitmap k = 1 → ∃ w ∈ coverBits i ps c ts bitmap idx,
        covers w c (bitmap_index_combination_values (idx + k) c ps) := by
  intro bitmap
  induction bitmap using Nat.strong_induction_on with
  | _ bitmap ih =>
    intro idx ts hval hrows
    by_cases h0 : bitmap = 0
    · subst h0
      rw [coverBits_zero]
      refine ⟨testsRefine_refl ts, hrows, fun k hk => ?_⟩
      rw [bitAt_zero_bitmap] at hk
      exact Nat.noConfusion hk
    · rw [coverBits_step i ps c ts h0 idx]
      have hts'facts : TestsRefine
            (if bitmap % 2 = 1 then
              coverValueTuple i ps ts (bitmap_index_combination_values idx c ps) c
            else ts) ts ∧
          RowsLV ps L (if bitmap % 2 = 1 then
              coverValueTuple i ps ts (bitmap_index_combination_values idx c ps) c
            else ts) ∧
          (bitmap % 2 = 1 → ∃ w ∈ (if bitmap % 2 = 1 then
              coverValueTuple i ps ts (bitmap_index_combination_values idx c ps) c
            else ts), covers w c (bitmap_index_combination_values idx c ps)) := by
        by_cases hbit : bitmap % 2 = 1
        · rw [if_pos hbit]
          have hv0 := hval 0 (by rw [bitAt_zero]; exact hbit)
          rw [Nat.add_zero] at hv0
          obtain ⟨hvlen, hvb⟩ := hv0
          obtain ⟨a, b2, c3⟩ := coverValueTuple_facts hnodup hvlen hposL hvb hL ts hrows
          exact ⟨a, c3, fun _ => b2⟩
        · rw [if_neg hbit]
          exact ⟨testsRefine_refl ts, hrows, fun h => absurd h hbit⟩
      obtain ⟨href1, hrows1, hcov1⟩ := hts'facts
      have hdiv : bitmap / 2 < bitmap :=
        Nat.div_lt_self (Nat.pos_of_ne_zero h0) Nat.one_lt_two
      have hval' : ∀ k, bitAt (bitmap / 2) k = 1 → ValidTuple ps c
          (bitmap_index_combination_values ((idx + 1) + k) c ps) := by
        intro k hk
        rw [bitAt_div_two] at hk
        have := hval (k + 1) hk
        rw [show idx + (k + 1) = (idx + 1) + k by omega] at this
        exact this
      obtain ⟨href2, hrows2, hcov2⟩ := ih (bitmap / 2) hdiv (idx + 1) _ hval' hrows1
      refine ⟨testsRefine_trans href1 href2, hrows2, fun k hk => ?_⟩
      cases k with
      | zero =>
        have hbit : bitmap % 2 = 1 := by rw [← bitAt_zero]; exact hk
        obtain ⟨w, hw, hcov⟩ := hcov1 hbit
        rw [Nat.add_zero]
        exact exists_covers_of_testsRefine href2 ⟨w, hw, hcov⟩
      | succ k =>
        have hk' : bitAt (bitmap / 2) k = 1 := by rw [bitAt_div_two]; exact hk
        have := hcov2 k hk'
        rw [show (idx + 1) + k = idx + (k + 1) by omega] at this
        exact this

/-! ## Value-tuple validity transfers -/

theorem zip_map_bound (f : ℕ → ℕ) :
    ∀ (c vs : List ℕ),
      (∀ pv ∈ (c.map f).zip vs, pv.2 < pv.1) ↔
        (∀ pv ∈ c.zip vs, pv.2 < f pv.1) := by
  intro c
  induction c with
  | nil => intro vs; simp
  | cons p c ih =>
    intro vs
    cases vs with
    | nil => simp
    | cons v vs =>
      rw [List.map_cons, List.zip_cons_cons, List.zip_cons_cons]
      constructor
      · intro h pv hpv
        rcases List.mem_cons.1 hpv with rfl | hm
        · exact h (f p, v) (List.mem_cons_self _ _)
        · exact (ih vs).1 (fun q hq => h q (List.mem_cons_of_mem _ hq)) pv hm
      · intro h pv hpv
        rcases List.mem_cons.1 hpv with rfl | hm
        · exact h (p, v) (List.mem_cons_self _ _)
        · exact (ih vs).2 (fun q hq => h q (List.mem_cons_of_mem _ hq)) pv hm

theorem decode_validTuple {ps : PSet} {c : List ℕ} {k : ℕ}
    (hk : k < comboWidth ps c) :
    ValidTuple ps c (bitmap_index_combination_values k c ps) := by
  rw [bitmap_index_combination_values_eq]
  refine ⟨by rw [decRec_length, radices_length], ?_⟩
  have h := decRec_valid (radices ps c) k (by rwa [comboWidth_eq_prod] at hk)
  exact (zip_map_bound _ c _).1 h

theorem encode_lt_width {ps : PSet} {c vs : List ℕ} (hvt : ValidTuple ps c vs) :
    combination_values_bitmap_index c vs ps < comboWidth ps c := by
  rw [combination_values_bitmap_index_eq, comboWidth_eq_prod]
  exact encRec_lt _ _ (by rw [radices_length]; exact hvt.1)
    ((zip_map_bound _ c vs).2 hvt.2)

theorem decode_encode_validTuple {ps : PSet} {c vs : List ℕ}
    (hvt : ValidTuple ps c vs) :
    bitmap_index_combination_values
      (combination_values_bitmap_index c vs ps) c ps = vs := by
  rw [combination_values_bitmap_index_eq, bitmap_index_combination_values_eq]
  exact decRec_encRec _ _ (by rw [radices_length]; exact hvt.1)
    ((zip_map_bound _ c vs).2 hvt.2)

/-! ## `resolveRow` -/

theorem resolveRow_length (ps : PSet) (test : Row) :
    (resolveRow ps test).length = test.length := by
  simp [resolveRow]

theorem resolveRow_getElem? (ps : PSet) (test : Row) (j : ℕ) :
    (resolveRow ps test)[j]? = (test[j]?).map fun cell =>
      match cell with
      | none => some ((ps.getD j []).getD 0 0)
      | some v => some v := by
  unfold resolveRow
  rw [List.getElem?_map, List.getElem?_enum]
  cases test[j]? <;> rfl

theorem resolveRow_refines (ps : PSet) (test : Row) :
    RowRefines (resolveRow ps test) test := by
  refine ⟨resolveRow_length ps test, fun j v hj => ?_⟩
  have hjlt : j < test.length := by
    by_contra hge
    push_neg at hge
    rw [List.getD_eq_getElem?_getD, List.getElem?_eq_none (by simpa using hge)] at hj
    exact Option.noConfusion hj
  rw [List.getD_eq_getElem?_getD, List.getElem?_eq_getElem hjlt] at hj
  rw [List.getD_eq_getElem?_getD, resolveRow_getElem?,
    List.getElem?_eq_getElem hjlt]
  simp only [Option.map_some']
  have : test[j] = some v := by simpa using hj
  rw [this]
  rfl

theorem resolveRow_concrete (ps : PSet) (test : Row) :
    RowConcrete (resolveRow ps test) := by
  intro cell hc
  unfold resolveRow at hc
  obtain ⟨jp, -, rfl⟩ := List.mem_map.1 hc
  cases jp.2 <;> simp

theorem resolveRow_valid {ps : PSet} {test : Row} (hWF : WFP ps)
    (hlen : test.length ≤ ps.length) (hval : RowValid ps test) :
    RowValid ps (resolveRow ps test) := by
  intro j v hj
  rw [resolveRow_getElem?] at hj
  cases hcell : test[j]? with
  | none => rw [hcell] at hj; exact Option.noConfusion hj
  | some cell =>
    rw [hcell] at hj
    simp only [Option.map_some'] at hj
    have hjlt : j < test.length := by
      by_contra hge
      push_neg at hge
      rw [List.getElem?_eq_none (by simpa using hge)] at hcell
      exact Option.noConfusion hcell
    cases cell with
    | some w =>
      have : some w = some v := by simpa using hj
      rw [← Option.some_injective _ this]
      exact hval j w hcell
    | none =>
      have hv : v = (ps.getD j []).getD 0 0 := by
        have : some (some ((ps.getD j []).getD 0 0)) = some (some v) := hj
        exact (Option.some_injective _ (Option.some_injective _ this)).symm
      subst hv
      have hjps : j < ps.length := lt_of_lt_of_le hjlt hlen
      have hpos : 0 < (ps.getD j []).length := WFP_dom_pos hWF hjps
      have hm : (ps.getD j []).getD 0 0 ∈ ps.getD j [] := by
        rw [List.getD_eq_getElem _ _ hpos]
        exact List.getElem_mem hpos
      exact WFP_mem_lt hWF hjps hm

theorem testsRefine_map_resolve (ps : PSet) (ts : List Row) :
    TestsRefine (ts.map (resolveRow ps)) ts := by
  refine ⟨by simp, fun k hk => ?_⟩
  have hk' : k < (ts.map (resolveRow ps)).length := by simpa using hk
  rw [List.getD_eq_getElem _ _ hk', List.getD_eq_getElem _ _ hk]
  rw [List.getElem_map]
  exact resolveRow_refines ps _

/-! ## Vertical extension -/

theorem verticalLoop_aux {t i : ℕ} {ps : PSet} {st : PiStore} {L : ℕ}
    (hL : (ps.take (i + 1)).length = L) :
    ∀ (combos : List (List ℕ)),
      (∀ c ∈ combos, c.Nodup ∧ (∀ p ∈ c, p < L) ∧
        bmOf t i st c < 2 ^ comboWidth ps c) →
      ∀ (ts : List Row), RowsLV ps L ts →
        TestsRefine
          (combos.foldl
            (fun acc c => coverBits i ps c acc (bmOf t i st c) 0) ts) ts ∧
        RowsLV ps L
          (combos.foldl
            (fun acc c => coverBits i ps c acc (bmOf t i st c) 0) ts) ∧
        ∀ c ∈ combos, ∀ k, bitAt (bmOf t i st c) k = 1 →
          ∃ w ∈ combos.foldl
            (fun acc c => coverBits i ps c acc (bmOf t i st c) 0) ts,
            covers w c (bitmap_index_combination_values k c ps) := by
  intro combos
  induction combos with
  | nil =>
    intro _ ts hrows
    exact ⟨testsRefine_refl ts, hrows, fun c hc => absurd hc (List.not_mem_nil c)⟩
  | cons c₀ rest ih =>
    intro hprops ts hrows
    obtain ⟨hnodup, hposL, hbound⟩ := hprops c₀ (List.mem_cons_self _ _)
    have hval : ∀ k, bitAt (bmOf t i st c₀) k = 1 → ValidTuple ps c₀
        (bitmap_index_combination_values (0 + k) c₀ ps) := by
      intro k hk
      rw [Nat.zero_add]
      exact decode_validTuple (bitAt_lt_of_lt_pow hbound hk)
    obtain ⟨href1, hrows1, hcov1⟩ :=
      coverBits_facts hnodup hposL hL (bmOf t i st c₀) 0 ts hval hrows
    rw [List.foldl_cons]
    obtain ⟨href2, hrows2, hcov2⟩ :=
      ih (fun c hc => hprops c (List.mem_cons_of_mem _ hc)) _ hrows1
    refine ⟨testsRefine_trans href1 href2, hrows2, fun c hc k hk => ?_⟩
    rcases List.mem_cons.1 hc with rfl | hc
    · have := hcov1 k hk
      rw [Nat.zero_add] at this
      exact exists_covers_of_testsRefine href2 this
    · exact hcov2 c hc k hk

theorem vertical_extension_main {t i : ℕ} {ps : PSet} {st : PiStore}
    (hWF : WFP ps) (hi : i < ps.length)
    (hC : Canonical t i ps st) (hB : BoundedStore t i ps st)
    (tests : List Row) (hrows : RowsLV ps (i + 1) tests)
    (hS : SoundW t i ps tests st) :
    RowsOK ps (i + 1) (vertical_extension t i tests st ps) ∧
    (∀ c ∈ st.combinations, ∀ vs, ValidTuple ps c vs →
      ∃ w ∈ vertical_extension t i tests st ps, covers w c vs) ∧
    (∀ c₀ vs₀, (∃ w ∈ tests, covers w c₀ vs₀) →
      ∃ w ∈ vertical_extension t i tests st ps, covers w c₀ vs₀) := by
  have hL : (ps.take (i + 1)).length = i + 1 := by
    rw [List.length_take]
    omega
  have hcombos : ∀ c ∈ st.combinations, c.Nodup ∧ (∀ p ∈ c, p < i + 1) ∧
      bmOf t i st c < 2 ^ comboWidth ps c := by
    intro c hc
    have hmem : c ∈ (construct_π i t ps).combinations := by rw [← hC.1]; exact hc
    have hsb := mem_construct_π_sorted hmem
    exact ⟨sortedBelow_nodup hsb, hsb.2, hB c hc⟩
  obtain ⟨href, hrowsl, hcov⟩ := verticalLoop_aux hL st.combinations hcombos tests hrows
  set looped := st.combinations.foldl
    (fun acc c => coverBits i ps c acc (bmOf t i st c) 0) tests with hlooped
  have hVE : vertical_extension t i tests st ps = looped.map (resolveRow ps) := rfl
  have hrefmap : TestsRefine (vertical_extension t i tests st ps) tests := by
    rw [hVE]
    exact testsRefine_trans href (testsRefine_map_resolve ps looped)
  refine ⟨?_, ?_, ?_⟩
  · -- RowsOK
    intro r hr
    rw [hVE] at hr
    obtain ⟨w, hw, rfl⟩ := List.mem_map.1 hr
    obtain ⟨hwlen, hwval⟩ := hrowsl w hw
    refine ⟨(resolveRow_length ps w).trans hwlen, resolveRow_concrete ps w, ?_⟩
    exact resolveRow_valid hWF (by omega) hwval
  · -- covering of the store's combinations
    intro c hc vs hvt
    have hb := encode_lt_width hvt
    have hbit2 := bitAt_lt_two (bmOf t i st c) (combination_values_bitmap_index c vs ps)
    by_cases hbit : bitAt (bmOf t i st c) (combination_values_bitmap_index c vs ps) = 1
    · have hw := hcov c hc _ hbit
      rw [decode_encode_validTuple hvt] at hw
      rw [hVE]
      exact exists_covers_of_testsRefine (testsRefine_map_resolve ps looped) hw
    · have hbit0 : bitAt (bmOf t i st c) (combination_values_bitmap_index c vs ps) = 0 := by
        omega
      have hw := hS c hc _ hb hbit0
      rw [decode_encode_validTuple hvt] at hw
      exact exists_covers_of_testsRefine hrefmap hw
  · -- preservation
    intro c₀ vs₀ hex
    exact exists_covers_of_testsRefine hrefmap hex

/-! ## Seed rows and prefix preservation -/

theorem listProd_shape {α : Type} :
    ∀ (doms : List (List α)) (vs : List α), vs ∈ listProd doms →
      vs.length = doms.length ∧ ∀ pv ∈ doms.zip vs, pv.2 ∈ pv.1 := by
  intro doms
  induction doms with
  | nil =>
    intro vs h
    simp only [listProd, List.mem_singleton] at h
    subst h
    simp
  | cons d ds ih =>
    intro vs h
    simp only [listProd, List.mem_flatMap, List.mem_map] at h
    obtain ⟨v, hv, rest, hrest, rfl⟩ := h
    obtain ⟨hlen, hzip⟩ := ih rest hrest
    refine ⟨by simp [hlen], ?_⟩
    intro pv hpv
    rw [List.zip_cons_cons] at hpv
    rcases List.mem_cons.1 hpv with rfl | hm
    · exact hv
    · exact hzip pv hm

theorem listProd_complete {α : Type} :
    ∀ (doms : List (List α)) (vs : List α), vs.length = doms.length →
      (∀ pv ∈ doms.zip vs, pv.2 ∈ pv.1) → vs ∈ listProd doms := by
  intro doms
  induction doms with
  | nil =>
    intro vs hlen _
    rw [List.length_nil] at hlen
    rw [List.length_eq_zero.1 hlen]
    simp [listProd]
  | cons d ds ih =>
    intro vs hlen hzip
    cases vs with
    | nil => simp at hlen
    | cons v rest =>
      simp only [listProd, List.mem_flatMap, List.mem_map]
      refine ⟨v, hzip (d, v) (by rw [List.zip_cons_cons]; exact List.mem_cons_self _ _),
        rest, ih rest (by simpa using hlen) ?_, rfl⟩
      intro pv hpv
      exact hzip pv (by rw [List.zip_cons_cons]; exact List.mem_cons_of_mem _ hpv)

theorem sortedBelow_len_eq_range {c : List ℕ} {n : ℕ} (h : SortedBelow n c)
    (hl : c.length = n) : c = List.range n :=
  (sorted_below_sublist_range h).eq_of_length (by rw [hl, List.length_range])

theorem covers_map_some_range {vs : List ℕ} {n : ℕ} (hvs : vs.length = n) :
    covers (vs.map some) (List.range n) vs := by
  apply covers_of_getD (by simp [hvs])
  intro j hj
  rw [List.length_range] at hj
  have hjv : j < vs.length := by omega
  have hr : (List.range n).getD j 0 = j := by
    rw [List.getD_eq_getElem _ _ (by simpa using hj)]
    simp
  rw [hr, List.getD_eq_getElem _ _ (by simpa [hvs] using hj),
    List.getD_eq_getElem _ _ hjv]
  simp

/-- Splitting the largest element off a sorted combination. -/
theorem sorted_split_last :
    ∀ (c : List ℕ) (i : ℕ), c.Sorted (· < ·) → i ∈ c → (∀ p ∈ c, p < i + 1) →
      ∃ c₀, c = c₀ ++ [i] ∧ SortedBelow i c₀ := by
  intro c
  induction c with
  | nil => intro i _ h _; exact absurd h (List.not_mem_nil i)
  | cons x rest ih =>
    intro i hsorted hi hb
    cases hrest : rest with
    | nil =>
      subst hrest
      have hx : x = i := by
        rcases List.mem_singleton.1 hi with h
        exact h.symm
      subst hx
      exact ⟨[], rfl, List.sorted_nil, fun p hp => absurd hp (List.not_mem_nil p)⟩
    | cons y ys =>
      subst hrest
      have hxlt : ∀ q ∈ y :: ys, x < q := (List.sorted_cons.1 hsorted).1
      have hirest : i ∈ y :: ys := by
        rcases List.mem_cons.1 hi with rfl | h
        · exfalso
          have h1 := hxlt y (List.mem_cons_self _ _)
          have h2 := hb y (List.mem_cons_of_mem _ (List.mem_cons_self _ _))
          omega
        · exact h
      obtain ⟨c₀, hc₀, hsb⟩ := ih i (List.sorted_cons.1 hsorted).2 hirest
        (fun p hp => hb p (List.mem_cons_of_mem _ hp))
      refine ⟨x :: c₀, by rw [hc₀]; rfl, ?_, ?_⟩
      · apply List.sorted_cons.2
        refine ⟨fun q hq => ?_, hsb.1⟩
        have : q ∈ y :: ys := by
          rw [hc₀]
          exact List.mem_append.2 (Or.inl hq)
        exact hxlt q this
      · intro p hp
        rcases List.mem_cons.1 hp with rfl | hp
        · have := hxlt i hirest
          omega
        · exact hsb.2 p hp

theorem covers_append_right {w : Row} {c vs : List ℕ} (x : Cell)
    (h : covers w c vs) (hpos : ∀ p ∈ c, p < w.length) :
    covers (w ++ [x]) c vs := by
  obtain ⟨hlen, hpts⟩ := covers_getD h
  apply covers_of_getD hlen
  intro j hj
  have hcj : c.getD j 0 ∈ c := by
    rw [List.getD_eq_getElem _ _ hj]
    exact List.getElem_mem hj
  rw [getD_append_left (hpos _ hcj)]
  exact hpts j hj

theorem exists_covers_extend {ts' ts : List Row} {c vs : List ℕ}
    (hF : List.Forall₂ (fun t' t0 => ∃ v, t' = t0 ++ [some v]) ts' ts)
    (hpos : ∀ w ∈ ts, ∀ p ∈ c, p < w.length)
    (hex : ∃ w ∈ ts, covers w c vs) : ∃ w' ∈ ts', covers w' c vs := by
  obtain ⟨w, hw, hcov⟩ := hex
  induction hF with
  | nil => exact absurd hw (List.not_mem_nil w)
  | cons hrel htail ih =>
    next t' t0 ts'' ts0 =>
    rcases List.mem_cons.1 hw with rfl | hw'
    · obtain ⟨v, rfl⟩ := hrel
      exact ⟨w ++ [some v], List.mem_cons_self _ _,
        covers_append_right _ hcov (hpos w (List.mem_cons_self _ _))⟩
    · obtain ⟨w', hw'', hcov'⟩ := ih
        (fun r hr => hpos r (List.mem_cons_of_mem _ hr)) hw'
      exact ⟨w', List.mem_cons_of_mem _ hw'', hcov'⟩

/-! ## The driver loop -/

theorem construct_π_bmOf {i t : ℕ} {ps : PSet} {c : List ℕ}
    (hc : c ∈ (construct_π i t ps).combinations) :
    bmOf t i (construct_π i t ps) c = 2 ^ comboWidth ps c - 1 := by
  have hpos := canonical_position (construct_π_canonical i t ps) hc
  rw [bmOf_eq]
  rw [construct_π_bitmap]
  have h2 : ((construct_π i t ps).combinations.map
      (fun c => 2 ^ comboWidth ps c - 1)).getD (ccIdx t i c) 0
      = 2 ^ comboWidth ps c - 1 := by
    rw [List.getD_eq_getElem?_getD, List.getElem?_map, hpos]
    rfl
  exact h2

theorem construct_π_bounded (i t : ℕ) (ps : PSet) :
    BoundedStore t i ps (construct_π i t ps) := by
  intro c hc
  rw [construct_π_bmOf hc]
  have : (0:ℕ) < 2 ^ comboWidth ps c := Nat.pos_pow_of_pos _ (by norm_num)
  omega

theorem construct_π_sound (i t : ℕ) (ps : PSet) :
    SoundW t i ps [] (construct_π i t ps) := by
  intro c hc b hb hbit
  rw [construct_π_bmOf hc] at hbit
  rw [bitAt_all_ones hb] at hbit
  exact Nat.noConfusion hbit

theorem ipogIter_inv {t i : ℕ} {ps : PSet} (hWF : WFP ps) (ht : 1 ≤ t)
    (hti : t ≤ i) (hi : i < ps.length) (tests : List Row)
    (hrows : RowsOK ps i tests) (hcov : CoversAll ps t i tests) :
    RowsOK ps (i + 1) (ipogIter t ps tests i) ∧
      CoversAll ps t (i + 1) (ipogIter t ps tests i) := by
  obtain ⟨hC1, hB1, hS1, hrows1, hF1⟩ :=
    horizontal_extension_main t i ps hWF hi tests (construct_π i t ps) []
      (construct_π_canonical i t ps) (construct_π_bounded i t ps) hrows
      (construct_π_sound i t ps)
  rw [List.nil_append] at hS1
  set r := horizontal_extension t i tests (construct_π i t ps) ps with hr
  obtain ⟨hrowsV, hcovV, hpresV⟩ :=
    vertical_extension_main hWF hi hC1 hB1 r.1
      (fun w hw => ⟨(hrows1 w hw).1, (hrows1 w hw).2.2⟩) hS1
  have hIter : ipogIter t ps tests i = vertical_extension t i r.1 r.2 ps := rfl
  rw [hIter]
  refine ⟨hrowsV, ?_⟩
  intro c vs hsb hclen hvt
  by_cases hic : i ∈ c
  · -- the combination involves parameter i: handled by the fresh store
    obtain ⟨c₀, rfl, hsb₀⟩ := sorted_split_last c i hsb.1 hic hsb.2
    have hc₀len : c₀.length = t - 1 := by
      have : c₀.length + 1 = t := by simpa using hclen
      omega
    have hmem : c₀ ++ [i] ∈ r.2.combinations := by
      rw [hC1.1]
      exact mem_construct_π.2 ⟨c₀, rfl, hsb₀, hc₀len⟩
    exact hcovV _ hmem vs hvt
  · -- the combination lies in the previous prefix
    have hblt : ∀ p ∈ c, p < i := by
      intro p hp
      have h1 := hsb.2 p hp
      have h2 : p ≠ i := fun h => hic (h ▸ hp)
      omega
    have hex0 : ∃ w ∈ tests, covers w c vs :=
      hcov c vs ⟨hsb.1, hblt⟩ hclen hvt
    have hex1 : ∃ w ∈ r.1, covers w c vs := by
      apply exists_covers_extend hF1 _ hex0
      intro w hw p hp
      rw [(hrows w hw).1]
      exact hblt p hp
    exact hpresV c vs hex1

theorem ipog_fold_inv {t : ℕ} {ps : PSet} (hWF : WFP ps) (ht : 1 ≤ t) :
    ∀ (n L : ℕ) (tests : List Row), L + n ≤ ps.length → t ≤ L →
      RowsOK ps L tests → CoversAll ps t L tests →
      RowsOK ps (L + n) ((List.range' L n).foldl (ipogIter t ps) tests) ∧
      CoversAll ps t (L + n) ((List.range' L n).foldl (ipogIter t ps) tests) := by
  intro n
  induction n with
  | zero =>
    intro L tests _ _ hrows hcov
    exact ⟨hrows, hcov⟩
  | succ n ih =>
    intro L tests hle htL hrows hcov
    rw [List.range'_succ L n 1, List.foldl_cons]
    obtain ⟨hrows', hcov'⟩ := ipogIter_inv hWF ht htL (by omega) tests hrows hcov
    have := ih (L + 1) (ipogIter t ps tests L) (by omega) (by omega) hrows' hcov'
    rwa [show L + 1 + n = L + (n + 1) by omega] at this

/-! ## `prepare` and strength clamping -/

theorem prepare_ps_length {K V : Type} [DecidableEq V]
    (parameters : List (K × List V)) :
    (prepare parameters).1.length = parameters.length := by
  simp [prepare]

theorem prepare_WFP {K V : Type} [DecidableEq V]
    {parameters : List (K × List V)} (hdoms : ∀ kv ∈ parameters, kv.2 ≠ []) :
    WFP (prepare parameters).1 := by
  intro dom hdom
  unfold prepare at hdom
  simp only [List.mem_map] at hdom
  obtain ⟨kv, hkv, rfl⟩ := hdom
  have hne : kv.2.dedup ≠ [] := by
    obtain ⟨x, hx⟩ := List.exists_mem_of_ne_nil kv.2 (hdoms kv hkv)
    intro h
    rw [← List.mem_dedup (a := x)] at hx
    rw [h] at hx
    exact List.not_mem_nil x hx
  constructor
  · intro h
    rw [List.range_eq_nil] at h
    rw [List.length_eq_zero.1 h] at hne
    exact hne rfl
  · rw [List.length_range]

theorem clampT_ge_one (s : ℤ) (N : ℕ) : 1 ≤ (max 1 (min s (N : ℤ))).toNat := by
  have h1 : (1:ℤ) ≤ max 1 (min s (N : ℤ)) := le_max_left 1 _
  omega

theorem clampT_le (s : ℤ) {N : ℕ} (hN : 1 ≤ N) :
    (max 1 (min s (N : ℤ))).toNat ≤ N := by
  have h1 : min s (N : ℤ) ≤ (N : ℤ) := min_le_right s _
  have h2 : (1:ℤ) ≤ (N : ℤ) := by exact_mod_cast hN
  have h3 : max 1 (min s (N : ℤ)) ≤ (N : ℤ) := max_le h2 h1
  omega

/-! ## The seed rows -/

theorem seed_facts {ps : PSet} (hWF : WFP ps) {t : ℕ} (htN : t ≤ ps.length) :
    RowsOK ps t ((listProd (ps.take t)).map fun row => row.map some) ∧
    CoversAll ps t t ((listProd (ps.take t)).map fun row => row.map some) := by
  have htake : (ps.take t).length = t := by
    rw [List.length_take]
    omega
  have htake_getD : ∀ j, j < t → (ps.take t)[j]? = some (ps.getD j []) := by
    intro j hj
    rw [List.getElem?_take]
    rw [if_pos hj]
    rw [List.getElem?_eq_getElem (by omega)]
    rw [List.getD_eq_getElem _ _ (by omega)]
  constructor
  · intro r hr
    obtain ⟨vs, hvs, rfl⟩ := List.mem_map.1 hr
    obtain ⟨hvslen, hvszip⟩ := listProd_shape _ vs hvs
    rw [htake] at hvslen
    refine ⟨by simpa using hvslen, ?_, ?_⟩
    · intro cell hc
      obtain ⟨x, -, rfl⟩ := List.mem_map.1 hc
      simp
    · intro j v hj
      rw [List.getElem?_map] at hj
      cases hvj : vs[j]? with
      | none => rw [hvj] at hj; exact Option.noConfusion hj
      | some w =>
        rw [hvj] at hj
        simp only [Option.map_some'] at hj
        have hw : w = v := Option.some_injective _ (Option.some_injective _ hj)
        subst hw
        have hjlt : j < vs.length := by
          by_contra hge
          push_neg at hge
          rw [List.getElem?_eq_none (by simpa using hge)] at hvj
          exact Option.noConfusion hvj
        have hpair : (ps.getD j [], w) ∈ (ps.take t).zip vs := by
          have hz : ((ps.take t).zip vs)[j]? = some (ps.getD j [], w) := by
            rw [List.getElem?_zip_eq_some]
            exact ⟨htake_getD j (by omega), hvj⟩
          exact List.getElem?_mem hz
        have hv := hvszip _ hpair
        exact WFP_mem_lt hWF (by omega) hv
  · intro c vs hsb hclen hvt
    have hc : c = List.range t := sortedBelow_len_eq_range hsb hclen
    subst hc
    have hvslen : vs.length = t := by
      rw [hvt.1, List.length_range]
    refine ⟨vs.map some, List.mem_map.2 ⟨vs, ?_, rfl⟩, covers_map_some_range hvslen⟩
    apply listProd_complete _ vs (by rw [hvslen, htake])
    intro pv hpv
    obtain ⟨j, hj⟩ := List.getElem?_of_mem hpv
    rw [List.getElem?_zip_eq_some] at hj
    obtain ⟨hj1, hj2⟩ := hj
    have hjt : j < t := by
      by_contra hge
      push_neg at hge
      rw [List.getElem?_eq_none (by rw [htake]; omega)] at hj1
      exact Option.noConfusion hj1
    have hj1' : pv.1 = ps.getD j [] := by
      have := htake_getD j hjt
      rw [this] at hj1
      exact (Option.some_injective _ hj1).symm
    have hvj : vs.getD j 0 = pv.2 := by
      rw [List.getD_eq_getElem?_getD, hj2]
      rfl
    have hpair : (j, pv.2) ∈ (List.range t).zip vs := by
      have hz : ((List.range t).zip vs)[j]? = some (j, pv.2) := by
        rw [List.getElem?_zip_eq_some]
        exact ⟨by rw [List.getElem?_range hjt], hj2⟩
      exact List.getElem?_mem hz
    have hb := hvt.2 _ hpair
    have hgd : (List.range t).getD j 0 = j := by
      rw [List.getD_eq_getElem _ _ (by simpa using hjt)]
      simp
    rw [hj1']
    have hjps : j < ps.length := by omega
    obtain ⟨hrange, -⟩ := WFP_range hWF hjps
    rw [hrange, List.mem_range]
    have : pv.2 < (ps.getD j []).length := by
      have h2 := hb
      simpa using h2
    exact this

/-! ## The driver -/

theorem covering_array_tests_main {K V : Type} [DecidableEq V]
    (parameters : List (K × List V)) (strength : ℤ)
    (hne : parameters ≠ []) (hdoms : ∀ kv ∈ parameters, kv.2 ≠ []) :
    RowsOK (prepare parameters).1 (prepare parameters).1.length
      (covering_array_tests parameters strength) ∧
    CoversAll (prepare parameters).1
      ((max 1 (min strength (parameters.length : ℤ))).toNat)
      (prepare parameters).1.length
      (covering_array_tests parameters strength) := by
  have hWF := prepare_WFP hdoms
  have hN1 : 1 ≤ parameters.length := by
    cases parameters with
    | nil => exact absurd rfl hne
    | cons kv rest => simp
  set t := (max 1 (min strength (parameters.length : ℤ))).toNat with ht
  have ht1 : 1 ≤ t := clampT_ge_one strength parameters.length
  have htN : t ≤ (prepare parameters).1.length := by
    rw [prepare_ps_length]
    exact clampT_le strength hN1
  obtain ⟨hrows0, hcov0⟩ := seed_facts hWF htN
  have hmain := ipog_fold_inv hWF ht1 ((prepare parameters).1.length - t) t
    ((listProd ((prepare parameters).1.take t)).map fun row => row.map some)
    (by omega) (le_refl t) hrows0 hcov0
  rw [show t + ((prepare parameters).1.length - t) = (prepare parameters).1.length
    by omega] at hmain
  exact hmain

/-! ## Decoding to named rows -/

theorem lookup_of_nodup {K V : Type} [DecidableEq K] :
    ∀ (l : List (K × V)), (l.map Prod.fst).Nodup → ∀ j, (hj : j < l.length) →
      l.lookup l[j].1 = some l[j].2 := by
  intro l
  induction l with
  | nil => intro _ j hj; simp at hj
  | cons kv rest ih =>
    intro hnd j hj
    obtain ⟨k, v⟩ := kv
    cases j with
    | zero =>
      show List.lookup k ((k, v) :: rest) = some v
      simp [List.lookup]
    | succ j =>
      have hj' : j < rest.length := by simpa using hj
      have hnd' : (k :: rest.map Prod.fst).Nodup := hnd
      have hne : k ≠ rest[j].1 := by
        have h1 : k ∉ rest.map Prod.fst := (List.nodup_cons.1 hnd').1
        intro h
        exact h1 (h ▸ List.mem_map.2 ⟨rest[j], List.getElem_mem hj', rfl⟩)
      show List.lookup rest[j].1 ((k, v) :: rest) = some rest[j].2
      simp only [List.lookup]
      rw [show (rest[j].1 == k) = false by simp [Ne.symm hne]]
      exact ih (List.nodup_cons.1 hnd').2 j hj'

/-- C1: Covering guarantee.  For every non-empty parameter mapping (each
parameter with a non-empty value list) and every strength, with effective
t = max(1, min(strength, N)): for every strictly ascending size-t tuple `cs`
of parameter positions and every value tuple `vs` drawn from the
(deduplicated) domains of those parameters, at least one row returned by
`covering_array` assigns exactly those values to those parameter names. -/
theorem covering_array_covering_guarantee {K V : Type} [DecidableEq K]
    [DecidableEq V] [Inhabited K] [Inhabited V]
    (parameters : List (K × List V)) (strength : ℤ)
    (hne : parameters ≠ [])
    (hdoms : ∀ kv ∈ parameters, kv.2 ≠ [])
    (hkeys : (parameters.map Prod.fst).Nodup)
    (cs : List ℕ) (vs : List V)
    (hsorted : cs.Sorted (· < ·))
    (hbound : ∀ p ∈ cs, p < parameters.length)
    (hclen : cs.length = (max 1 (min strength (parameters.length : ℤ))).toNat)
    (hvlen : vs.length = cs.length)
    (hmem : ∀ pv ∈ cs.zip vs, pv.2 ∈ (parameters.getD pv.1 default).2) :
    ∃ row ∈ covering_array parameters strength,
      ∀ pv ∈ cs.zip vs,
        row.lookup (parameters.getD pv.1 default).1 = some pv.2 := by
  obtain ⟨hrowsF, hcovF⟩ := covering_array_tests_main parameters strength hne hdoms
  have hpsN : (prepare parameters).1.length = parameters.length :=
    prepare_ps_length parameters
  -- encoded parameter domains
  have hps_getD : ∀ p, p < parameters.length →
      (prepare parameters).1.getD p []
        = List.range (parameters.getD p default).2.dedup.length := by
    intro p hp
    unfold prepare
    rw [List.getD_eq_getElem?_getD, List.getElem?_map,
      List.getElem?_eq_getElem hp]
    rw [List.getD_eq_getElem _ _ hp]
    rfl
  -- the index tuple corresponding to vs
  set vsIdx : List ℕ := (cs.zip vs).map
    (fun pv => List.indexOf pv.2 (parameters.getD pv.1 default).2.dedup)
    with hvsIdx
  have hziplen : (cs.zip vs).length = cs.length := by
    rw [List.length_zip, hvlen, min_self]
  have hvsIdxlen : vsIdx.length = cs.length := by
    rw [hvsIdx, List.length_map, hziplen]
  -- pointwise description of the zip and of vsIdx
  have hzip_at : ∀ j, j < cs.length →
      ∃ p v, cs[j]? = some p ∧ vs[j]? = some v ∧
        (cs.zip vs)[j]? = some (p, v) ∧
        vsIdx[j]? = some (List.indexOf v (parameters.getD p default).2.dedup) := by
    intro j hj
    have hjv : j < vs.length := by omega
    refine ⟨cs[j], vs[j], List.getElem?_eq_getElem hj, List.getElem?_eq_getElem hjv, ?_, ?_⟩
    · rw [List.getElem?_zip_eq_some]
      exact ⟨List.getElem?_eq_getElem hj, List.getElem?_eq_getElem hjv⟩
    · rw [hvsIdx, List.getElem?_map]
      have : (cs.zip vs)[j]? = some (cs[j], vs[j]) := by
        rw [List.getElem?_zip_eq_some]
        exact ⟨List.getElem?_eq_getElem hj, List.getElem?_eq_getElem hjv⟩
      rw [this]
      rfl
  -- validity of the index tuple
  have hvt : ValidTuple (prepare parameters).1 cs vsIdx := by
    refine ⟨hvsIdxlen, ?_⟩
    intro pv hpv
    obtain ⟨j, hj⟩ := List.getElem?_of_mem hpv
    rw [List.getElem?_zip_eq_some] at hj
    obtain ⟨hj1, hj2⟩ := hj
    have hjc : j < cs.length := by
      by_contra hge
      push_neg at hge
      rw [List.getElem?_eq_none (by omega)] at hj1
      exact Option.noConfusion hj1
    obtain ⟨p, v, hp, hv, hzip, hidx⟩ := hzip_at j hjc
    have hpv1 : pv.1 = p := by
      rw [hp] at hj1
      exact (Option.some_injective _ hj1).symm
    have hpv2 : pv.2 = List.indexOf v (parameters.getD p default).2.dedup := by
      rw [hidx] at hj2
      exact (Option.some_injective _ hj2).symm
    have hpN : p < parameters.length := by
      apply hbound
      exact List.getElem?_mem hp
    have hvmem : v ∈ (parameters.getD p default).2 := by
      apply hmem (p, v)
      exact List.getElem?_mem hzip
    rw [hpv1, hpv2, hps_getD p hpN, List.length_range]
    exact List.indexOf_lt_length.2 (List.mem_dedup.2 hvmem)
  -- the covering row at index level
  have hsb : SortedBelow (prepare parameters).1.length cs := by
    rw [hpsN]
    exact ⟨hsorted, hbound⟩
  obtain ⟨test, htest, hcov⟩ := hcovF cs vsIdx hsb hclen hvt
  obtain ⟨htlen, htconc, htvalid⟩ := hrowsF test htest
  obtain ⟨hcovlen, hcovpts⟩ := covers_getD hcov
  -- the decoded row
  refine ⟨test.enum.map fun jp =>
    (((prepare parameters).2.getD jp.1 default).1,
      ((prepare parameters).2.getD jp.1 default).2.getD (jp.2.getD 0) default),
    ?_, ?_⟩
  · unfold covering_array convert_tests_to_covering_array
    exact List.mem_map.2 ⟨test, htest, rfl⟩
  · intro pv hpv
    obtain ⟨j, hj⟩ := List.getElem?_of_mem hpv
    rw [List.getElem?_zip_eq_some] at hj
    obtain ⟨hj1, hj2⟩ := hj
    have hjc : j < cs.length := by
      by_contra hge
      push_neg at hge
      rw [List.getElem?_eq_none (by omega)] at hj1
      exact Option.noConfusion hj1
    obtain ⟨p, v, hp, hv, hzip, hidx⟩ := hzip_at j hjc
    have hpv1 : pv.1 = p := by
      rw [hp] at hj1; exact (Option.some_injective _ hj1).symm
    have hpv2 : pv.2 = v := by
      rw [hv] at hj2; exact (Option.some_injective _ hj2).symm
    subst hpv1
    rw [hpv2]
    have hpN : pv.1 < parameters.length := hbound _ (List.getElem?_mem hp)
    have hpT : pv.1 < test.length := by
      rw [htlen, hpsN]; exact hpN
    have hvmem : v ∈ (parameters.getD pv.1 default).2 := hmem _ (List.getElem?_mem hzip)
    have hidxlt : List.indexOf v (parameters.getD pv.1 default).2.dedup
        < (parameters.getD pv.1 default).2.dedup.length :=
      List.indexOf_lt_length.2 (List.mem_dedup.2 hvmem)
    -- the cell of the index row at position pv.1
    have hcell : test.getD pv.1 none
        = some (List.indexOf v (parameters.getD pv.1 default).2.dedup) := by
      have h1 := hcovpts j hjc
      have hc1 : cs.getD j 0 = pv.1 := by
        rw [List.getD_eq_getElem?_getD, hp]; rfl
      have hc2 : vsIdx.getD j 0
          = List.indexOf v (parameters.getD pv.1 default).2.dedup := by
        rw [List.getD_eq_getElem?_getD, hidx]; rfl
      rw [hc1, hc2] at h1
      exact h1
    have hcell' : test[pv.1]?
        = some (some (List.indexOf v (parameters.getD pv.1 default).2.dedup)) := by
      rw [List.getD_eq_getElem?_getD] at hcell
      cases hc0 : test[pv.1]? with
      | none => rw [hc0] at hcell; exact Option.noConfusion hcell
      | some cell =>
        rw [hc0] at hcell
        rw [show cell = some (List.indexOf v (parameters.getD pv.1 default).2.dedup)
          from hcell]
    -- the prepared map entry at position pv.1
    have hpm : (prepare parameters).2.getD pv.1 default
        = ((parameters.getD pv.1 default).1, (parameters.getD pv.1 default).2.dedup) := by
      unfold prepare
      rw [List.getD_eq_getElem?_getD, List.getElem?_map,
        List.getElem?_eq_getElem hpN]
      rw [List.getD_eq_getElem _ _ hpN]
      rfl
    -- the decoded row and its keys
    set row := test.enum.map fun jp =>
      (((prepare parameters).2.getD jp.1 default).1,
        ((prepare parameters).2.getD jp.1 default).2.getD (jp.2.getD 0) default)
      with hrow
    clear_value row
    have hrowlen : row.length = test.length := by
      rw [hrow]; simp
    have hrow_at : ∀ m, m < test.length → row[m]?
        = some (((prepare parameters).2.getD m default).1,
          ((prepare parameters).2.getD m default).2.getD
            ((test.getD m none).getD 0) default) := by
      intro m hm
      rw [hrow, List.getElem?_map, List.getElem?_enum,
        List.getElem?_eq_getElem hm, List.getD_eq_getElem _ _ hm]
      rfl
    have hkeysrow : (row.map Prod.fst).Nodup := by
      have hEq : row.map Prod.fst = parameters.map Prod.fst := by
        apply List.ext_getElem?
        intro m
        rw [List.getElem?_map, List.getElem?_map]
        by_cases hm : m < test.length
        · rw [hrow_at m hm]
          have hmN : m < parameters.length := by rw [← hpsN, ← htlen]; exact hm
          rw [List.getElem?_eq_getElem hmN]
          simp only [Option.map_some']
          have hpmm : (prepare parameters).2.getD m default
              = ((parameters.getD m default).1, (parameters.getD m default).2.dedup) := by
            unfold prepare
            rw [List.getD_eq_getElem?_getD, List.getElem?_map,
              List.getElem?_eq_getElem hmN]
            rw [List.getD_eq_getElem _ _ hmN]
            rfl
          rw [hpmm]
          rw [List.getD_eq_getElem _ _ hmN]
        · push_neg at hm
          have hmN : parameters.length ≤ m := by rw [← hpsN, ← htlen]; exact hm
          have hnone1 : row[m]? = none :=
            List.getElem?_eq_none (by rw [hrowlen]; exact hm)
          rw [hnone1, List.getElem?_eq_none hmN]
          rfl
      rw [hEq]
      exact hkeys
    -- the pair stored at position pv.1 of the row
    have hrowp : row[pv.1]? = some ((parameters.getD pv.1 default).1, v) := by
      rw [hrow_at pv.1 hpT, hpm]
      rw [hcell]
      rw [show (some (List.indexOf v (parameters.getD pv.1 default).2.dedup)).getD 0
        = List.indexOf v (parameters.getD pv.1 default).2.dedup from rfl]
      have hdec : (parameters.getD pv.1 default).2.dedup.getD
          (List.indexOf v (parameters.getD pv.1 default).2.dedup) default = v := by
        rw [List.getD_eq_getElem _ _ hidxlt]
        exact List.getElem_indexOf hidxlt
      rw [hdec]
    -- conclude via the nodup-key lookup
    have hpR : pv.1 < row.length := by rw [hrowlen]; exact hpT
    have hrowp' : row[pv.1] = ((parameters.getD pv.1 default).1, v) := by
      have := hrowp
      rw [List.getElem?_eq_getElem hpR] at this
      exact Option.some_injective _ this
    have := lookup_of_nodup row hkeysrow pv.1 hpR
    rw [hrowp'] at this
    exact this

theorem covering_array_covering_guarantee_witness :
    ∃ row ∈ covering_array [("a", [0, 1]), ("b", [0, 1])] 2,
      ∀ pv ∈ ([0, 1] : List ℕ).zip ([1, 0] : List ℕ),
        row.lookup (([("a", [0, 1]), ("b", [0, 1])].getD pv.1 default).1)
          = some pv.2 :=
  covering_array_covering_guarantee [("a", [0, 1]), ("b", [0, 1])] 2
    (by decide) (by decide) (by decide) [0, 1] [1, 0]
    (by decide) (by decide) (by decide) (by decide) (by decide)

/-! ## The π indexing claim -/

theorem mem_enum_getElem? {α : Type} {l : List α} {jc : ℕ × α}
    (h : jc ∈ l.enum) : l[jc.1]? = some jc.2 := by
  obtain ⟨k, hk⟩ := List.getElem?_of_mem h
  rw [List.getElem?_enum, Option.map_eq_some'] at hk
  obtain ⟨a, ha, rfl⟩ := hk
  exact ha

/-- C4: π indexing consistency.  For strength `t ≥ 1` and active parameter
`i ≥ t−1`, every combination `c` at position `j` of
`(construct_π i t ps).combinations` satisfies
`combination_index t i c = j`, so `π.bitmap[combination_index t i c]` is
exactly `c`'s bitmap; and the initial bitmap of a combination of width `w`
is `2^w − 1` (all ones). -/
theorem construct_pi_index_consistency (t i : ℕ) (ps : PSet)
    (ht : 1 ≤ t) (hi : t - 1 ≤ i) :
    (∀ jc ∈ (construct_π i t ps).combinations.enum,
        combination_index t i jc.2 = (jc.1 : ℤ)) ∧
    (∀ c ∈ (construct_π i t ps).combinations,
        bmOf t i (construct_π i t ps) c = 2 ^ comboWidth ps c - 1) := by
  refine ⟨fun jc hjc => construct_π_rank (mem_enum_getElem? hjc),
    fun c hc => construct_π_bmOf hc⟩

theorem construct_pi_index_consistency_witness :
    (∀ jc ∈ (construct_π 2 2 [[0, 1], [0, 1], [0, 1]]).combinations.enum,
        combination_index 2 2 jc.2 = (jc.1 : ℤ)) ∧
    (∀ c ∈ (construct_π 2 2 [[0, 1], [0, 1], [0, 1]]).combinations,
        bmOf 2 2 (construct_π 2 2 [[0, 1], [0, 1], [0, 1]]) c
          = 2 ^ comboWidth [[0, 1], [0, 1], [0, 1]] c - 1) :=
  construct_pi_index_consistency 2 2 [[0, 1], [0, 1], [0, 1]]
    (by decide) (by decide)

/-! ## The combination rank claim -/

theorem rank_mem_position {N k : ℕ} {c : List ℕ} (hs : SortedBelow N c)
    (hl : c.length = k) :
    ∃ j : ℕ, (listCombinations k (List.range N))[j]? = some c ∧
      rankAux N k c = (j : ℤ) ∧ j < N.choose k := by
  obtain ⟨j, hj⟩ :=
    List.getElem?_of_mem (sorted_below_mem_listCombinations hs hl)
  obtain ⟨hjlt, -⟩ := List.getElem?_eq_some.1 hj
  rw [listCombinations_length, List.length_range] at hjlt
  exact ⟨j, hj, rankAux_position N k j c hj, hjlt⟩

/-- C5 counterexample: the claim says `combination_index t N c` computes
`C(N, t) − 1 − Σ_{i=0..t−2} C(N − c_i − 1, t − i − 1)`, but on the
combination `[0, 1]` with `t = 2`, `N = 4`, that formula gives `2`
while `combination_index` returns `0` (the code uses `C(N, t−1)` and
ranks the dropped-last prefix). -/
theorem combination_index_formula_counterexample :
    combination_index 2 4 [0, 1] = 0 ∧
      (((4 : ℕ).choose 2 : ℤ) - 1
          - (((4 - 0 - 1 : ℕ).choose (2 - 0 - 1) : ℤ)) = 2) := by
  decide

/-- C5 (amended): `combination_index t N c` ignores the last element of the
combination and computes `C(N, t−1) − 1 − Σ_{i} C(N − c_i − 1, (t−1) − i)`
over the dropped-last prefix, and on strictly ascending prefixes of length
`t − 1` over `{0..N−1}` (with arbitrary final element) this rank is a
bijection into `[0, C(N, t−1))`. -/
theorem combination_index_rank_bijection (t N : ℕ) (ht : 1 ≤ t) :
    (∀ c : List ℕ, combination_index t N c
        = (N.choose (t - 1) : ℤ) - 1 - sumTerm N (t - 1) c.dropLast) ∧
    (∀ c x, SortedBelow N c → c.length = t - 1 →
        0 ≤ combination_index t N (c ++ [x]) ∧
          combination_index t N (c ++ [x]) < (N.choose (t - 1) : ℤ)) ∧
    (∀ c₁ c₂ x₁ x₂, SortedBelow N c₁ → SortedBelow N c₂ →
        c₁.length = t - 1 → c₂.length = t - 1 →
        combination_index t N (c₁ ++ [x₁])
            = combination_index t N (c₂ ++ [x₂]) →
        c₁ = c₂) ∧
    (∀ j : ℕ, j < N.choose (t - 1) →
        ∃ c, SortedBelow N c ∧ c.length = t - 1 ∧
          ∀ x, combination_index t N (c ++ [x]) = (j : ℤ)) := by
  have hdrop : ∀ (c : List ℕ) (x : ℕ),
      combination_index t N (c ++ [x]) = rankAux N (t - 1) c := by
    intro c x
    rw [combination_index_eq_rankAux, List.dropLast_concat]
  refine ⟨fun c => rfl, ?_, ?_, ?_⟩
  · intro c x hs hl
    obtain ⟨j, hj, hrank, hjlt⟩ := rank_mem_position hs hl
    rw [hdrop, hrank]
    exact ⟨Int.natCast_nonneg j, by exact_mod_cast hjlt⟩
  · intro c₁ c₂ x₁ x₂ hs₁ hs₂ hl₁ hl₂ heq
    obtain ⟨j₁, hj₁, hrank₁, -⟩ := rank_mem_position hs₁ hl₁
    obtain ⟨j₂, hj₂, hrank₂, -⟩ := rank_mem_position hs₂ hl₂
    rw [hdrop, hdrop, hrank₁, hrank₂] at heq
    have hjj : j₁ = j₂ := by exact_mod_cast heq
    rw [hjj, hj₂] at hj₁
    exact (Option.some.inj hj₁).symm
  · intro j hj
    have hjlt : j < (listCombinations (t - 1) (List.range N)).length := by
      rw [listCombinations_length, List.length_range]
      exact hj
    set c := (listCombinations (t - 1) (List.range N))[j] with hc
    have hcj : (listCombinations (t - 1) (List.range N))[j]? = some c :=
      List.getElem?_eq_getElem hjlt
    have hmem : c ∈ listCombinations (t - 1) (List.range N) :=
      List.getElem_mem hjlt
    obtain ⟨hsub, hlen⟩ := (mem_listCombinations _ _ _).1 hmem
    refine ⟨c, sublist_range_sorted_below hsub, hlen, fun x => ?_⟩
    rw [hdrop]
    exact rankAux_position N (t - 1) j c hcj

theorem combination_index_rank_bijection_witness :
    (∀ c : List ℕ, combination_index 2 3 c
        = ((3 : ℕ).choose 1 : ℤ) - 1 - sumTerm 3 1 c.dropLast) ∧
    (∀ c x, SortedBelow 3 c → c.length = 1 →
        0 ≤ combination_index 2 3 (c ++ [x]) ∧
          combination_index 2 3 (c ++ [x]) < ((3 : ℕ).choose 1 : ℤ)) ∧
    (∀ c₁ c₂ x₁ x₂, SortedBelow 3 c₁ → SortedBelow 3 c₂ →
        c₁.length = 1 → c₂.length = 1 →
        combination_index 2 3 (c₁ ++ [x₁])
            = combination_index 2 3 (c₂ ++ [x₂]) →
        c₁ = c₂) ∧
    (∀ j : ℕ, j < (3 : ℕ).choose 1 →
        ∃ c, SortedBelow 3 c ∧ c.length = 1 ∧
          ∀ x, combination_index 2 3 (c ++ [x]) = (j : ℤ)) :=
  combination_index_rank_bijection 2 3 (by decide)

/-! ## The bit-index round-trip claim -/

/-- C6: Bit-index round trip.  For every combination with domain sizes
`d_0..d_{t−1}` and every value tuple `v` with `0 ≤ v_i < d_i`:
`combination_values_bitmap_index` returns the mixed-radix number
`Σ_i v_i · Π_{j>i} d_j`; decoding that index recovers exactly `v`; the
index lies below the total width `Π_i d_i`; and for every index in
`[0, Π_i d_i)` encoding the decoded value tuple returns that index. -/
theorem bitmap_index_roundtrip (ps : PSet) (c vs : List ℕ)
    (hvt : ValidTuple ps c vs) :
    combination_values_bitmap_index c vs ps
        = (vs.enum.map fun iv =>
            (((radices ps c).drop (iv.1 + 1)).prod * iv.2)).sum ∧
    bitmap_index_combination_values
        (combination_values_bitmap_index c vs ps) c ps = vs ∧
    combination_values_bitmap_index c vs ps < comboWidth ps c ∧
    ∀ k < comboWidth ps c,
      combination_values_bitmap_index c
          (bitmap_index_combination_values k c ps) ps = k := by
  refine ⟨rfl, decode_encode_validTuple hvt, encode_lt_width hvt, ?_⟩
  intro k hk
  rw [combination_values_bitmap_index_eq, bitmap_index_combination_values_eq]
  exact encRec_decRec _ k (by rw [← comboWidth_eq_prod]; exact hk)

theorem bitmap_index_roundtrip_witness :
    combination_values_bitmap_index [0, 1] [2, 1] [[0, 1, 2], [0, 1]]
        = (([2, 1] : List ℕ).enum.map fun iv =>
            (((radices [[0, 1, 2], [0, 1]] [0, 1]).drop (iv.1 + 1)).prod
              * iv.2)).sum ∧
    bitmap_index_combination_values
        (combination_values_bitmap_index [0, 1] [2, 1] [[0, 1, 2], [0, 1]])
        [0, 1] [[0, 1, 2], [0, 1]] = [2, 1] ∧
    combination_values_bitmap_index [0, 1] [2, 1] [[0, 1, 2], [0, 1]]
        < comboWidth [[0, 1, 2], [0, 1]] [0, 1] ∧
    ∀ k < comboWidth [[0, 1, 2], [0, 1]] [0, 1],
      combination_values_bitmap_index [0, 1]
          (bitmap_index_combination_values k [0, 1] [[0, 1, 2], [0, 1]])
          [[0, 1, 2], [0, 1]] = k :=
  bitmap_index_roundtrip [[0, 1, 2], [0, 1]] [0, 1] [2, 1]
    ⟨by decide, by decide⟩

/-! ## The coverage-evaluator claim -/

/-- C2 counterexample: on a π with the single combination `[0, 1]`, bitmap
`15` (all four value tuples uncovered) and candidate row `[0, 0]`, clearing
the tuple's bit leaves `14`, so exactly one tuple is newly covered (total
decrease in set-bit population `1`), yet `calculate_coverage` returns
coverage `−3`: the source subtracts the last combination's pre-update
popcount (the leaked loop variable `current_coverage`) from the
accumulated gain. -/
theorem calculate_coverage_claim_counterexample :
    (calculate_coverage 2 1 [some 0, some 0] ⟨[[0, 1]], [15]⟩
        [[0, 1], [0, 1]]).1 = -3 ∧
    trueGain 2 1 [some 0, some 0] ⟨[[0, 1]], [15]⟩ [[0, 1], [0, 1]] = 1 ∧
    (calculate_coverage 2 1 [some 0, some 0] ⟨[[0, 1]], [15]⟩
        [[0, 1], [0, 1]]).2 = [14] := by
  decide

/-- C2 (amended): for a canonical π with a non-empty combination list,
`calculate_coverage` returns the pair whose first component is the total
number of newly covered value tuples (the sum over all combinations of the
decrease in set-bit population) MINUS the pre-update popcount of the LAST
combination's bitmap, and whose second component is the full bitmap
sequence with each combination's tuple bit cleared. -/
theorem calculate_coverage_residual (t i : ℕ) (ps : PSet) (st : PiStore)
    (hC : Canonical t i ps st) (test : Row) (hne : st.combinations ≠ []) :
    (calculate_coverage t i test st ps).1
        = trueGain t i test st ps
          - (popCount (bmOf t i st (st.combinations.getLastD [])) : ℤ) ∧
    (calculate_coverage t i test st ps).2.length = st.bitmap.length ∧
    ∀ c ∈ st.combinations,
      bmOf t i ⟨st.combinations, (calculate_coverage t i test st ps).2⟩ c
        = clearBit (bmOf t i st c)
            (combination_values_bitmap_index c (valsAt test c) ps) := by
  refine ⟨?_, cc_snd_length t i test st ps, fun c hc => cc_snd_bmOf hC test hc⟩
  rw [calculate_coverage_eq]
  show trueGain t i test st ps - ccResidual t i st = _
  have hgl : st.combinations.getLastD [] = st.combinations.getLast hne := by
    rw [List.getLastD_eq_getLast?, List.getLast?_eq_getLast _ hne]
    rfl
  rw [hgl]
  congr 1
  unfold ccResidual
  exact foldl_const_last _ st.combinations 0 hne

theorem calculate_coverage_residual_witness :
    (calculate_coverage 2 1 [some 0, some 0] ⟨[[0, 1]], [15]⟩
        [[0, 1], [0, 1]]).1
        = trueGain 2 1 [some 0, some 0] ⟨[[0, 1]], [15]⟩ [[0, 1], [0, 1]]
          - (popCount (bmOf 2 1 ⟨[[0, 1]], [15]⟩
              (([[0, 1]] : List (List ℕ)).getLastD [])) : ℤ) ∧
    (calculate_coverage 2 1 [some 0, some 0] ⟨[[0, 1]], [15]⟩
        [[0, 1], [0, 1]]).2.length = ([15] : List ℕ).length ∧
    ∀ c ∈ ([[0, 1]] : List (List ℕ)),
      bmOf 2 1 ⟨[[0, 1]], (calculate_coverage 2 1 [some 0, some 0]
          ⟨[[0, 1]], [15]⟩ [[0, 1], [0, 1]]).2⟩ c
        = clearBit (bmOf 2 1 ⟨[[0, 1]], [15]⟩ c)
            (combination_values_bitmap_index c
              (valsAt [some 0, some 0] c) [[0, 1], [0, 1]]) :=
  calculate_coverage_residual 2 1 [[0, 1], [0, 1]] ⟨[[0, 1]], [15]⟩
    ⟨by decide, by decide⟩ [some 0, some 0] (by decide)

/-! ## The don't-care leak claim -/

/-- C7: No don't-cares leak.  Every cell of every row produced by the
generator's index phase is concrete (the sentinel `X`, embedded as `none`,
never appears); every row leaving a vertical extension is concrete; and the
final resolution pass replaces every remaining `X` by the first value of
that position's domain while leaving concrete cells unchanged, so the
decoding step only ever sees concrete value indices. -/
theorem no_dont_care_leak {K V : Type} [DecidableEq V]
    (parameters : List (K × List V)) (strength : ℤ) :
    (∀ row ∈ covering_array_tests parameters strength,
        ∀ cell ∈ row, cell ≠ none) ∧
    (∀ (t i : ℕ) (tests : List Row) (st : PiStore) (ps : PSet),
        ∀ row ∈ vertical_extension t i tests st ps,
          ∀ cell ∈ row, cell ≠ none) ∧
    (∀ (ps : PSet) (test : Row) (j : ℕ), j < test.length →
        (test.getD j (some 0) = none →
          (resolveRow ps test).getD j none = some ((ps.getD j []).getD 0 0)) ∧
        (∀ v, test.getD j (some 0) = some v →
          (resolveRow ps test).getD j none = some v)) := by
  refine ⟨?_, ?_, ?_⟩
  · have hconc : ∀ (t : ℕ) (ps : PSet) (l : List ℕ) (tests : List Row),
        (∀ row ∈ tests, ∀ cell ∈ row, cell ≠ none) →
        ∀ row ∈ l.foldl (ipogIter t ps) tests, ∀ cell ∈ row, cell ≠ none := by
      intro t ps l
      induction l with
      | nil => intro tests h; simpa using h
      | cons j l ih =>
        intro tests h
        rw [List.foldl_cons]
        refine ih _ ?_
        intro row hrow
        simp only [ipogIter, vertical_extension] at hrow
        obtain ⟨w, -, rfl⟩ := List.mem_map.1 hrow
        intro cell hcell
        exact resolveRow_concrete _ _ cell hcell
    intro row hrow
    unfold covering_array_tests at hrow
    refine hconc _ _ _ _ ?_ row hrow
    intro row hrow cell hcell
    obtain ⟨w, -, rfl⟩ := List.mem_map.1 hrow
    obtain ⟨v, -, rfl⟩ := List.mem_map.1 hcell
    simp
  · intro t i tests st ps row hrow
    unfold vertical_extension at hrow
    obtain ⟨w, -, rfl⟩ := List.mem_map.1 hrow
    intro cell hcell
    exact resolveRow_concrete _ _ cell hcell
  · intro ps test j hj
    have h := resolveRow_getElem? ps test j
    have hjget : test[j]? = some test[j] := List.getElem?_eq_getElem hj
    rw [hjget] at h
    have hD : (resolveRow ps test).getD j none
        = (match test[j] with
           | none => some ((ps.getD j []).getD 0 0)
           | some v => some v) := by
      rw [List.getD_eq_getElem?_getD, h]
      rfl
    have hDt : test.getD j (some 0) = test[j] := List.getD_eq_getElem _ _ hj
    constructor
    · intro hn
      rw [hDt] at hn
      rw [hD, hn]
    · intro v hv
      rw [hDt] at hv
      rw [hD, hv]

theorem no_dont_care_leak_witness :
    ∀ row ∈ covering_array_tests
        [("a", [0, 1]), ("b", [0, 1]), ("c", [0, 1])] 2,
      ∀ cell ∈ row, cell ≠ none :=
  (no_dont_care_leak [("a", [0, 1]), ("b", [0, 1]), ("c", [0, 1])] 2).1

/-! ## The generator validation claim -/

/-- C9 counterexample: the generator performs no input validation and
cannot fail.  On an empty parameter mapping `covering_array` returns
`[[]]` (one empty row) instead of raising `EmptyParameters`, and a negative
strength is silently clamped instead of raising `InvalidStrength`: with
strength `−5` the generator still returns the strength-1 array. -/
theorem covering_array_no_validation_counterexample :
    covering_array ([] : List (String × List ℕ)) 2 = [[]] ∧
    covering_array [("a", [0, 1])] (-5) = [[("a", 0)], [("a", 1)]] := by
  decide

/-- C9 (amended): the generator is a total function with no error path: on
an empty parameter mapping it returns the single empty row, and any
strength ≤ 0 is clamped to effective strength 1, so the result coincides
with the strength-1 covering array. -/
theorem covering_array_no_validation {K V : Type} [DecidableEq V]
    [DecidableEq K] [Inhabited K] [Inhabited V]
    (parameters : List (K × List V)) (strength : ℤ) (hs : strength ≤ 0) :
    covering_array ([] : List (K × List V)) strength = [[]] ∧
    covering_array parameters strength = covering_array parameters 1 := by
  constructor
  · simp [covering_array, covering_array_tests, prepare, listProd,
      convert_tests_to_covering_array]
  · have ht : max 1 (min strength (parameters.length : ℤ))
        = max 1 (min 1 (parameters.length : ℤ)) := by
      have h0 : (0 : ℤ) ≤ (parameters.length : ℤ) := Int.natCast_nonneg _
      omega
    unfold covering_array covering_array_tests
    rw [ht]

theorem covering_array_no_validation_witness :
    covering_array ([] : List (String × List ℕ)) (-5) = [[]] ∧
    covering_array [("a", [0, 1])] (-5) = covering_array [("a", [0, 1])] 1 :=
  covering_array_no_validation [("a", [0, 1])] (-5) (by decide)

/-! ## The checker behaviour claim -/

theorem uncovered_iff {K V : Type} [DecidableEq K] [DecidableEq V]
    (ca : List (List (K × V))) (cv : List K × List V) :
    (!ca.any fun test => rowMatches test cv.1 cv.2) = true
      ↔ ¬ ∃ row ∈ ca, rowMatches row cv.1 cv.2 = true := by
  rw [Bool.not_eq_true', Bool.eq_false_iff]
  exact not_congr List.any_eq_true

theorem covered_iff {K V : Type} [DecidableEq K] [DecidableEq V]
    (ca : List (List (K × V))) (cv : List K × List V) :
    (!ca.any fun test => rowMatches test cv.1 cv.2) = false
      ↔ ∃ row ∈ ca, rowMatches row cv.1 cv.2 = true := by
  rw [Bool.not_eq_false']
  exact List.any_eq_true

/-- C8: Checker behaviour.  `check` fails with `EmptyCoveringArray` iff the
given covering array is empty; on a non-empty array it returns `True` iff
every required (combination, values) pair — every size-strength combination
of parameter names combined with every value tuple from their domains — is
matched by some row; and it fails with
`MissingCombination combination values` iff the array is non-empty and
`(combination, values)` is the FIRST uncovered pair in the checker's
enumeration order (every earlier pair is covered by some row), so no
further gaps are enumerated. -/
theorem check_characterization {K V : Type} [DecidableEq K] [DecidableEq V]
    (parameters : List (K × List V)) (ca : List (List (K × V)))
    (strength : ℕ) :
    (check parameters ca strength = .error .emptyCoveringArray ↔ ca = []) ∧
    (check parameters ca strength = .ok true ↔ ca ≠ [] ∧
      ∀ cv ∈ requiredPairs parameters strength,
        ∃ row ∈ ca, rowMatches row cv.1 cv.2 = true) ∧
    (∀ (combination : List K) (values : List V),
      check parameters ca strength
          = .error (.missingCombination combination values) ↔
        ca ≠ [] ∧
        ∃ pre post,
          requiredPairs parameters strength
              = pre ++ (combination, values) :: post ∧
          (∀ cv ∈ pre, ∃ row ∈ ca, rowMatches row cv.1 cv.2 = true) ∧
          ¬ ∃ row ∈ ca, rowMatches row combination values = true) := by
  by_cases hca : ca = []
  · subst hca
    refine ⟨by simp [check], by simp [check], fun combination values => by
      simp [check]⟩
  · have hchk : check parameters ca strength
        = match (requiredPairs parameters strength).find?
            (fun cv => !ca.any fun test => rowMatches test cv.1 cv.2) with
          | some cv => .error (.missingCombination cv.1 cv.2)
          | none => .ok true := by
      unfold check
      rw [if_neg hca]
    cases hfind : (requiredPairs parameters strength).find?
        (fun cv => !ca.any fun test => rowMatches test cv.1 cv.2) with
    | none =>
      rw [hfind] at hchk
      have hall : ∀ cv ∈ requiredPairs parameters strength,
          ∃ row ∈ ca, rowMatches row cv.1 cv.2 = true := by
        intro cv hcv
        have h := List.find?_eq_none.1 hfind cv hcv
        exact (covered_iff ca cv).1 (Bool.eq_false_iff.2 h)
      refine ⟨?_, ?_, ?_⟩
      · rw [hchk]
        simp [hca]
      · rw [hchk]
        exact iff_of_true rfl ⟨hca, hall⟩
      · intro combination values
        rw [hchk]
        refine iff_of_false (by simp) ?_
        rintro ⟨-, pre, post, hsplit, -, hunc⟩
        have hmem : (combination, values) ∈ requiredPairs parameters strength := by
          rw [hsplit]
          exact List.mem_append_right _ (List.mem_cons_self _ _)
        have h := List.find?_eq_none.1 hfind _ hmem
        exact h ((uncovered_iff ca (combination, values)).2 hunc)
    | some cv =>
      rw [hfind] at hchk
      obtain ⟨hp, pre, post, hsplit, hpre⟩ := List.find?_eq_some.1 hfind
      refine ⟨?_, ?_, ?_⟩
      · rw [hchk]
        exact iff_of_false (by simp) hca
      · rw [hchk]
        refine iff_of_false (by simp) ?_
        rintro ⟨-, hall⟩
        have hcv := hall cv (by
          rw [hsplit]
          exact List.mem_append_right _ (List.mem_cons_self _ _))
        exact (uncovered_iff ca cv).1 hp hcv
      · intro combination values
        rw [hchk]
        constructor
        · intro h
          have hcveq : cv = (combination, values) := by
            injection h with h1
            injection h1 with h2 h3
            exact Prod.ext h2 h3
          refine ⟨hca, pre, post, ?_, ?_, ?_⟩
          · rw [← hcveq]
            exact hsplit
          · intro a ha
            have h2 := hpre a ha
            simp only [Bool.not_not] at h2
            exact List.any_eq_true.1 h2
          · have h3 := (uncovered_iff ca cv).1 hp
            rwa [hcveq] at h3
        · rintro ⟨-, pre', post', hsplit', hpre', hunc'⟩
          have hfind2 : (requiredPairs parameters strength).find?
              (fun cv => !ca.any fun test => rowMatches test cv.1 cv.2)
              = some (combination, values) := by
            apply List.find?_eq_some.2
            refine ⟨(uncovered_iff ca (combination, values)).2 hunc',
              pre', post', hsplit', ?_⟩
            intro a ha
            simp only [Bool.not_not]
            exact List.any_eq_true.2 (hpre' a ha)
          rw [hfind] at hfind2
          have hcveq : cv = (combination, values) := Option.some.inj hfind2
          rw [hcveq]

theorem check_characterization_witness :
    (check [("a", [0, 1])] [[("a", 0)]] 1 = .error .emptyCoveringArray
        ↔ ([[("a", 0)]] : List (List (String × ℕ))) = []) ∧
    (check [("a", [0, 1])] [[("a", 0)]] 1 = .ok true
        ↔ ([[("a", 0)]] : List (List (String × ℕ))) ≠ [] ∧
      ∀ cv ∈ requiredPairs [("a", [0, 1])] 1,
        ∃ row ∈ ([[("a", 0)]] : List (List (String × ℕ))),
          rowMatches row cv.1 cv.2 = true) ∧
    (∀ (combination : List String) (values : List ℕ),
      check [("a", [0, 1])] [[("a", 0)]] 1
          = .error (.missingCombination combination values) ↔
        ([[("a", 0)]] : List (List (String × ℕ))) ≠ [] ∧
        ∃ pre post,
          requiredPairs [("a", [0, 1])] 1
              = pre ++ (combination, values) :: post ∧
          (∀ cv ∈ pre, ∃ row ∈ ([[("a", 0)]] : List (List (String × ℕ))),
            rowMatches row cv.1 cv.2 = true) ∧
          ¬ ∃ row ∈ ([[("a", 0)]] : List (List (String × ℕ))),
            rowMatches row combination values = true) :=
  check_characterization [("a", [0, 1])] [[("a", 0)]] 1

/-! ## The checker over-strength claim -/

/-- C10: the checker does not clamp the strength the way the generator
does: for every non-empty covering array and every strength strictly
greater than the number of parameters, the iteration over size-strength
combinations of parameter names is empty, so `check` returns `True`
vacuously, regardless of the array's contents. -/
theorem check_overstrength {K V : Type} [DecidableEq K] [DecidableEq V]
    (parameters : List (K × List V)) (ca : List (List (K × V)))
    (strength : ℕ) (hca : ca ≠ []) (hs : parameters.length < strength) :
    check parameters ca strength = .ok true := by
  unfold check
  rw [if_neg hca]
  have hcomb : listCombinations strength (parameters.map Prod.fst) = [] := by
    have hlen : (listCombinations strength (parameters.map Prod.fst)).length
        = 0 := by
      rw [listCombinations_length, List.length_map]
      exact Nat.choose_eq_zero_of_lt hs
    exact List.length_eq_zero.1 hlen
  rw [show requiredPairs parameters strength = [] from by
    unfold requiredPairs; rw [hcomb]; rfl]
  rfl

theorem check_overstrength_witness :
    check [("a", [0, 1])] [[("a", 5)]] 2 = .ok true :=
  check_overstrength [("a", [0, 1])] [[("a", 5)]] 2 (by decide) (by decide)

/-! ## The horizontal-extension selection claim -/

theorem chooseBestStep_rel {t i : ℕ} {test : Row} {st : PiStore} {ps : PSet}
    (R : ℤ)
    (hR : ∀ τ : Row, (calculate_coverage t i τ st ps).1
      = trueGain t i τ st ps - R) :
    ∀ (acc acc' : Option BestTest), bestRel R acc acc' →
      ∀ v, bestRel R (chooseBestStep t i test st ps acc v)
        (chooseBestSpecStep t i test st ps acc' v) := by
  intro acc acc' hrel v
  cases acc with
  | none =>
    cases acc' with
    | none =>
      simp only [chooseBestStep, chooseBestSpecStep]
      exact ⟨rfl, rfl, hR _⟩
    | some b' => exact False.elim hrel
  | some b =>
    cases acc' with
    | none => exact False.elim hrel
    | some b' =>
      obtain ⟨ht', hb', hc'⟩ := hrel
      simp only [chooseBestStep, chooseBestSpecStep]
      have hcond : ((calculate_coverage t i (test ++ [some v]) st ps).1
          ≥ b.coverage)
          ↔ (trueGain t i (test ++ [some v]) st ps ≥ b'.coverage) := by
        rw [hR, hc']
        constructor <;> intro h <;> omega
      by_cases hc : trueGain t i (test ++ [some v]) st ps ≥ b'.coverage
      · rw [if_pos (hcond.2 hc), if_pos hc]
        exact ⟨rfl, rfl, hR _⟩
      · rw [if_neg (fun h => hc (hcond.1 h)), if_neg hc]
        exact ⟨ht', hb', hc'⟩

theorem chooseBest_rel_fold {t i : ℕ} {test : Row} {st : PiStore} {ps : PSet}
    (R : ℤ)
    (hR : ∀ τ : Row, (calculate_coverage t i τ st ps).1
      = trueGain t i τ st ps - R) :
    ∀ (l : List ℕ) (acc acc' : Option BestTest), bestRel R acc acc' →
      bestRel R (l.foldl (chooseBestStep t i test st ps) acc)
        (l.foldl (chooseBestSpecStep t i test st ps) acc') := by
  intro l
  induction l with
  | nil => intro acc acc' h; simpa using h
  | cons v l ih =>
    intro acc acc' h
    rw [List.foldl_cons, List.foldl_cons]
    exact ih _ _ (chooseBestStep_rel R hR acc acc' h v)

theorem chooseBest_rel (t i : ℕ) (test : Row) (st : PiStore) (ps : PSet) :
    bestRel (ccResidual t i st) (chooseBest t i test st ps)
      (chooseBestSpec t i test st ps) := by
  unfold chooseBest chooseBestSpec
  exact chooseBest_rel_fold _
    (fun τ => congrArg Prod.fst (calculate_coverage_eq t i τ st ps))
    _ none none trivial

theorem chooseBestSpecStep_inv (t i : ℕ) (test : Row) (st : PiStore)
    (ps : PSet) (processed : List ℕ) (acc : Option BestTest) (v : ℕ)
    (h : OptInv t i test st ps processed acc) :
    OptInv t i test st ps (processed ++ [v])
      (chooseBestSpecStep t i test st ps acc v) := by
  rcases h with ⟨hn, hp⟩ | ⟨b, hb, hinv⟩
  · subst hn
    subst hp
    refine Or.inr ⟨_, rfl, ?_, ?_⟩
    · exact ⟨v, [], [], by simp, rfl, rfl, rfl, by simp⟩
    · intro w hw
      rw [List.nil_append, List.mem_singleton] at hw
      subst hw
      exact le_refl _
  · subst hb
    simp only [chooseBestSpecStep]
    by_cases hge : trueGain t i (test ++ [some v]) st ps ≥ b.coverage
    · rw [if_pos hge]
      refine Or.inr ⟨_, rfl, ?_, ?_⟩
      · exact ⟨v, processed, [], by simp, rfl, rfl, rfl, by simp⟩
      · intro w hw
        rcases List.mem_append.1 hw with hw | hw
        · exact le_trans (hinv.2 w hw) hge
        · rw [List.mem_singleton] at hw
          subst hw
          exact le_refl _
    · rw [if_neg hge]
      push_neg at hge
      obtain ⟨⟨v₀, pre, suf, hps, hbt, hbc, hbb, hsuf⟩, hmax⟩ := hinv
      refine Or.inr ⟨b, rfl, ⟨v₀, pre, suf ++ [v], ?_, hbt, hbc, hbb, ?_⟩, ?_⟩
      · rw [hps, List.append_assoc, List.cons_append]
      · intro w hw
        rcases List.mem_append.1 hw with hw | hw
        · exact hsuf w hw
        · rw [List.mem_singleton] at hw
          subst hw
          exact hge
      · intro w hw
        rcases List.mem_append.1 hw with hw | hw
        · exact hmax w hw
        · rw [List.mem_singleton] at hw
          subst hw
          exact le_of_lt hge

theorem chooseBestSpec_fold_inv (t i : ℕ) (test : Row) (st : PiStore)
    (ps : PSet) :
    ∀ (l processed : List ℕ) (acc : Option BestTest),
      OptInv t i test st ps processed acc →
      OptInv t i test st ps (processed ++ l)
        (l.foldl (chooseBestSpecStep t i test st ps) acc) := by
  intro l
  induction l with
  | nil => intro processed acc h; simpa using h
  | cons v l ih =>
    intro processed acc h
    rw [List.foldl_cons]
    have h2 := chooseBestSpecStep_inv t i test st ps processed acc v h
    have h3 := ih (processed ++ [v]) _ h2
    rwa [List.append_assoc] at h3

theorem chooseBestSpec_argmax (t i : ℕ) (test : Row) (st : PiStore)
    (ps : PSet) (hne : ps.getD i [] ≠ []) :
    ∃ b, chooseBestSpec t i test st ps = some b ∧
      SpecInv t i test st ps (ps.getD i []) b := by
  have h := chooseBestSpec_fold_inv t i test st ps (ps.getD i []) [] none
    (Or.inl ⟨rfl, rfl⟩)
  rw [List.nil_append] at h
  rcases h with ⟨-, hp⟩ | ⟨b, hb, hinv⟩
  · exact absurd hp hne
  · exact ⟨b, hb, hinv⟩

theorem horizontal_extension_eq_spec :
    ∀ (t i : ℕ) (tests : List Row) (st : PiStore) (ps : PSet),
      horizontal_extension t i tests st ps
        = horizontal_extension_spec t i tests st ps := by
  intro t i tests
  induction tests with
  | nil => intro st ps; rfl
  | cons test rest ih =>
    intro st ps
    simp only [horizontal_extension, horizontal_extension_spec]
    have hrel := chooseBest_rel t i test st ps
    cases hcb : chooseBest t i test st ps with
    | none =>
      cases hcb' : chooseBestSpec t i test st ps with
      | none =>
        simp only [Option.getD]
        rw [ih]
      | some b' =>
        rw [hcb, hcb'] at hrel
        exact False.elim hrel
    | some b =>
      cases hcb' : chooseBestSpec t i test st ps with
      | none =>
        rw [hcb, hcb'] at hrel
        exact False.elim hrel
      | some b' =>
        rw [hcb, hcb'] at hrel
        obtain ⟨ht', hb', -⟩ := hrel
        simp only [Option.getD]
        rw [ht', hb', ih]

/-- C3: Horizontal extension selects by true gain with a last-wins
tie-break.  `horizontal_extension` computes exactly the spec-modelled
`horizontal_extension_spec` (so the residual subtraction inside the
evaluator changes neither the selected candidate nor the committed
bitmaps); for each row the selected candidate extends the row by a domain
value of parameter `i` whose true gain (total number of newly covered
tuples) is maximal, every value scanned later having a strictly smaller
true gain; and the winner's updated bitmaps are committed as the new π
before the next row is processed. -/
theorem horizontal_extension_true_gain (t i : ℕ) (tests : List Row)
    (st : PiStore) (ps : PSet) (hne : ps.getD i [] ≠ []) :
    horizontal_extension t i tests st ps
        = horizontal_extension_spec t i tests st ps ∧
    (∀ test : Row,
      ∃ b, chooseBest t i test st ps = some b ∧
        (∃ v pre suf, ps.getD i [] = pre ++ v :: suf ∧
          b.test = test ++ [some v] ∧
          b.bitmap = (calculate_coverage t i (test ++ [some v]) st ps).2 ∧
          ∀ w ∈ suf, trueGain t i (test ++ [some w]) st ps
            < trueGain t i (test ++ [some v]) st ps) ∧
        ∀ w ∈ ps.getD i [],
          trueGain t i (test ++ [some w]) st ps
            ≤ trueGain t i b.test st ps) ∧
    (∀ (test : Row) (rest : List Row),
      horizontal_extension t i (test :: rest) st ps
        = (((chooseBest t i test st ps).getD ⟨test, 0, st.bitmap⟩).test ::
            (horizontal_extension t i rest
              ⟨st.combinations,
               ((chooseBest t i test st ps).getD
                 ⟨test, 0, st.bitmap⟩).bitmap⟩ ps).1,
           (horizontal_extension t i rest
              ⟨st.combinations,
               ((chooseBest t i test st ps).getD
                 ⟨test, 0, st.bitmap⟩).bitmap⟩ ps).2)) := by
  refine ⟨horizontal_extension_eq_spec t i tests st ps, ?_,
    fun test rest => rfl⟩
  intro test
  obtain ⟨b', hb', ⟨v, pre, suf, hsplit, hbt, hbc, hbb, hsuf⟩, hmax⟩ :=
    chooseBestSpec_argmax t i test st ps hne
  have hrel := chooseBest_rel t i test st ps
  cases hcb : chooseBest t i test st ps with
  | none =>
    rw [hcb, hb'] at hrel
    exact False.elim hrel
  | some b =>
    rw [hcb, hb'] at hrel
    obtain ⟨htst, hbm, -⟩ := hrel
    refine ⟨b, rfl, ⟨v, pre, suf, hsplit, htst.trans hbt, ?_, ?_⟩, ?_⟩
    · rw [hbm, hbb]
    · intro w hw
      have := hsuf w hw
      rwa [hbc] at this
    · intro w hw
      have h1 := hmax w hw
      rw [hbc] at h1
      rw [htst.trans hbt]
      exact h1

theorem horizontal_extension_true_gain_witness :
    horizontal_extension 2 1 [[some 0]] ⟨[[0, 1]], [15]⟩ [[0, 1], [0, 1]]
        = horizontal_extension_spec 2 1 [[some 0]] ⟨[[0, 1]], [15]⟩
            [[0, 1], [0, 1]] ∧
    (∀ test : Row,
      ∃ b, chooseBest 2 1 test ⟨[[0, 1]], [15]⟩ [[0, 1], [0, 1]] = some b ∧
        (∃ v pre suf,
          ([[0, 1], [0, 1]] : PSet).getD 1 [] = pre ++ v :: suf ∧
          b.test = test ++ [some v] ∧
          b.bitmap = (calculate_coverage 2 1 (test ++ [some v])
              ⟨[[0, 1]], [15]⟩ [[0, 1], [0, 1]]).2 ∧
          ∀ w ∈ suf,
            trueGain 2 1 (test ++ [some w]) ⟨[[0, 1]], [15]⟩
                [[0, 1], [0, 1]]
              < trueGain 2 1 (test ++ [some v]) ⟨[[0, 1]], [15]⟩
                  [[0, 1], [0, 1]]) ∧
        ∀ w ∈ ([[0, 1], [0, 1]] : PSet).getD 1 [],
          trueGain 2 1 (test ++ [some w]) ⟨[[0, 1]], [15]⟩ [[0, 1], [0, 1]]
            ≤ trueGain 2 1 b.test ⟨[[0, 1]], [15]⟩ [[0, 1], [0, 1]]) ∧
    (∀ (test : Row) (rest : List Row),
      horizontal_extension 2 1 (test :: rest) ⟨[[0, 1]], [15]⟩
          [[0, 1], [0, 1]]
        = (((chooseBest 2 1 test ⟨[[0, 1]], [15]⟩
              [[0, 1], [0, 1]]).getD ⟨test, 0, [15]⟩).test ::
            (horizontal_extension 2 1 rest
              ⟨[[0, 1]],
               ((chooseBest 2 1 test ⟨[[0, 1]], [15]⟩
                 [[0, 1], [0, 1]]).getD ⟨test, 0, [15]⟩).bitmap⟩
              [[0, 1], [0, 1]]).1,
           (horizontal_extension 2 1 rest
              ⟨[[0, 1]],
               ((chooseBest 2 1 test ⟨[[0, 1]], [15]⟩
                 [[0, 1], [0, 1]]).getD ⟨test, 0, [15]⟩).bitmap⟩
              [[0, 1], [0, 1]]).2)) :=
  horizontal_extension_true_gain 2 1 [[some 0]] ⟨[[0, 1]], [15]⟩
    [[0, 1], [0, 1]] (by decide)

end TFCore
